import Mathlib

/-!
Verification development for the `quant_backtester` core: a shallow embedding
of the event types (`events.py`), the metrics (`utils/metrics.py`), the
position / portfolio state machine (`portfolio/simple_portfolio.py`), the
moving-average strategy (`strategy/moving_average.py`), the execution
microstructure simulator (`execution/simulated_execution.py`) and the event
loop (`backtest.py`).  Python floats are embedded as exact rationals (the spec
states the invariants "exact when arithmetic is exact"), Python ints as `ℤ`
(or `ℕ` for counters), dicts as association lists or functions with the
dict-default, and the seeded RNG as an explicit stream `ℕ → ℚ` of draws.
-/

namespace Backtest

/-- Side of a trade, from `events.Side`. -/
inductive Side
  | BUY
  | SELL
deriving DecidableEq, Repr

/-- `Side.sign`: +1 for BUY, -1 for SELL. -/
def Side.sign : Side → ℤ
  | .BUY => 1
  | .SELL => -1

/-- Market tick, from `events.MarketEvent`. -/
structure MarketEvent where
  timestamp : ℤ
  symbol : String
  mid : ℚ
  bid : Option ℚ := none
  ask : Option ℚ := none
  spread_bps : Option ℚ := none
  volume : Option ℚ := none
deriving DecidableEq, Repr

/-- Order type literal `"MARKET" | "LIMIT"` from `events.OrderEvent.order_type`. -/
inductive OrderType
  | MARKET
  | LIMIT
deriving DecidableEq, Repr

/-- Order record, from `events.OrderEvent`.  The Python dataclass declares no
`__post_init__`, so construction performs no validation of any field. -/
structure OrderEvent where
  timestamp : ℤ
  symbol : String
  side : Side
  quantity : ℤ
  order_type : OrderType := .MARKET
  limit_price : Option ℚ := none
deriving DecidableEq, Repr

/-- Fill record, from `events.FillEvent`. -/
structure FillEvent where
  timestamp : ℤ
  symbol : String
  side : Side
  quantity : ℤ
  fill_price : ℚ
  commission : ℚ
  slippage : ℚ
deriving DecidableEq, Repr

/-- Construction of an `OrderEvent`, modelling the Python dataclass call
`OrderEvent(...)`: there is no `__post_init__`, so every combination of field
values is accepted and an object is returned (`some`); no exception path
exists.  (Contrast with the config records in `config.py`, which do validate.) -/
def mkOrderEvent (timestamp : ℤ) (symbol : String) (side : Side) (quantity : ℤ)
    (order_type : OrderType) (limit_price : Option ℚ) : Option OrderEvent :=
  some ⟨timestamp, symbol, side, quantity, order_type, limit_price⟩

/-! ## Metrics (`utils/metrics.py`) -/

/-- Loop body of `max_drawdown`: carries the running `peak` and running `mdd`
over the equity list, per `metrics.max_drawdown`. -/
def max_drawdown_loop : ℚ → ℚ → List ℚ → ℚ
  | _, mdd, [] => mdd
  | peak, mdd, x :: xs =>
      let peak' := max peak x
      let dd := if peak' ≠ 0 then (peak' - x) / peak' else 0
      max_drawdown_loop peak' (max mdd dd) xs

/-- `metrics.max_drawdown`: 0 on empty input; otherwise the loop with
`peak` initialised to `equity[0]` and `mdd` to 0. -/
def max_drawdown : List ℚ → ℚ
  | [] => 0
  | x :: xs => max_drawdown_loop x 0 (x :: xs)

/-- Drawdown term of the spec: `(peak - x) / peak`, taken as 0 when `peak = 0`. -/
def dd_term (p x : ℚ) : ℚ := if p ≠ 0 then (p - x) / p else 0

/-- Running maximum of the first `i+1` elements of `xs`, seeded with `peak`. -/
def prefix_peak (peak : ℚ) (xs : List ℚ) (i : ℕ) : ℚ :=
  (xs.take (i + 1)).foldl max peak

/-- Modelled from the spec's words: "max over i of (peak_le_i − eq_i)/peak_le_i,
taking the term as 0 when peak_le_i == 0; 0 for empty input", where `peak_le_i`
is the maximum of the first `i+1` equity values. -/
def mddSpec (eq : List ℚ) : ℚ :=
  (List.range eq.length).foldl
    (fun m i => max m (dd_term (prefix_peak (eq.getD 0 0) eq i) (eq.getD i 0))) 0

theorem max_drawdown_loop_ge (xs : List ℚ) :
    ∀ peak mdd, mdd ≤ max_drawdown_loop peak mdd xs := by
  induction xs with
  | nil => intro peak mdd; simp [max_drawdown_loop]
  | cons x xs ih =>
      intro peak mdd
      calc mdd ≤ max mdd (if max peak x ≠ 0 then (max peak x - x) / max peak x else 0) :=
            le_max_left _ _
        _ ≤ _ := ih _ _

theorem max_drawdown_nonneg (eq : List ℚ) : 0 ≤ max_drawdown eq := by
  cases eq with
  | nil => simp [max_drawdown]
  | cons x xs => exact max_drawdown_loop_ge (x :: xs) x 0

theorem max_drawdown_loop_lt_one (xs : List ℚ) :
    ∀ peak mdd, 0 < peak → (∀ x ∈ xs, 0 < x) → mdd < 1 →
      max_drawdown_loop peak mdd xs < 1 := by
  induction xs with
  | nil => intro peak mdd _ _ h; simpa [max_drawdown_loop] using h
  | cons x xs ih =>
      intro peak mdd hpeak hpos hmdd
      have hx : 0 < x := hpos x (List.mem_cons_self x xs)
      have hpeak' : 0 < max peak x := lt_max_of_lt_left hpeak
      refine ih (max peak x) _ hpeak' (fun y hy => hpos y (List.mem_cons_of_mem _ hy)) ?_
      have hdd : (if max peak x ≠ 0 then (max peak x - x) / max peak x else 0) < 1 := by
        rw [if_pos (ne_of_gt hpeak')]
        rw [div_lt_one hpeak']
        linarith
      exact max_lt hmdd hdd

theorem max_drawdown_loop_eq_spec (xs : List ℚ) :
    ∀ peak mdd, max_drawdown_loop peak mdd xs
      = (List.range xs.length).foldl
          (fun m i => max m (dd_term (prefix_peak peak xs i) (xs.getD i 0))) mdd := by
  induction xs with
  | nil => intro peak mdd; simp [max_drawdown_loop]
  | cons x xs ih =>
      intro peak mdd
      rw [List.length_cons, List.range_succ_eq_map, List.foldl_cons, List.foldl_map]
      have h0 : prefix_peak peak (x :: xs) 0 = max peak x := by
        simp [prefix_peak]
      have hstep : (fun (m : ℚ) (i : ℕ) =>
            max m (dd_term (prefix_peak peak (x :: xs) (Nat.succ i)) ((x :: xs).getD (Nat.succ i) 0)))
          = fun (m : ℚ) (i : ℕ) =>
            max m (dd_term (prefix_peak (max peak x) xs i) (xs.getD i 0)) := by
        funext m i
        have : prefix_peak peak (x :: xs) (Nat.succ i) = prefix_peak (max peak x) xs i := by
          simp [prefix_peak, List.take_succ_cons, List.foldl_cons]
        rw [this, List.getD_cons_succ]
      rw [hstep]
      show max_drawdown_loop (max peak x)
          (max mdd (if max peak x ≠ 0 then (max peak x - x) / max peak x else 0)) xs = _
      rw [ih (max peak x) (max mdd (if max peak x ≠ 0 then (max peak x - x) / max peak x else 0))]
      congr 1

theorem max_drawdown_eq_mddSpec (eq : List ℚ) : max_drawdown eq = mddSpec eq := by
  cases eq with
  | nil => simp [max_drawdown, mddSpec]
  | cons x xs =>
      show max_drawdown_loop x 0 (x :: xs) = _
      rw [max_drawdown_loop_eq_spec (x :: xs) x 0]
      rfl

/-- C4 counterexample: the claim asserts `max_drawdown` always lands in `[0, 1)`,
but on the input `[1, -1]` (equity going negative) the code returns 2. -/
theorem claim_C4_counterexample :
    max_drawdown [(1 : ℚ), -1] = 2 ∧ ¬ max_drawdown [(1 : ℚ), -1] < 1 := by
  constructor
  · norm_num [max_drawdown, max_drawdown_loop]
  · norm_num [max_drawdown, max_drawdown_loop]

/-- C4 (amended): `max_drawdown` returns 0 on the empty list, equals the spec's
maximum over i of `(peak_le_i - eq_i)/peak_le_i` (term 0 when the prefix peak is
0), and is always nonnegative; it lies below 1 whenever every equity value is
positive (the unconditional upper bound of the original claim fails for lists
with non-positive entries). -/
theorem claim_C4_max_drawdown :
    max_drawdown ([] : List ℚ) = 0
    ∧ (∀ eq : List ℚ, max_drawdown eq = mddSpec eq)
    ∧ (∀ eq : List ℚ, 0 ≤ max_drawdown eq)
    ∧ (∀ eq : List ℚ, (∀ x ∈ eq, 0 < x) → max_drawdown eq < 1) := by
  refine ⟨rfl, max_drawdown_eq_mddSpec, max_drawdown_nonneg, ?_⟩
  intro eq hpos
  cases eq with
  | nil => norm_num [max_drawdown]
  | cons x xs =>
      exact max_drawdown_loop_lt_one (x :: xs) x 0
        (hpos x (List.mem_cons_self x xs)) hpos (by norm_num)

/-- Witness for C4 at the concrete curve `[1, 2, 1]`. -/
theorem claim_C4_witness :
    (∀ x ∈ [(1 : ℚ), 2, 1], 0 < x) ∧ max_drawdown [(1 : ℚ), 2, 1] < 1 :=
  ⟨by decide, claim_C4_max_drawdown.2.2.2 [1, 2, 1] (by decide)⟩

/-! ## Position (`portfolio/simple_portfolio.py`, class `Position`) -/

/-- Signed quantity of a fill: `fill.quantity if fill.side == Side.BUY else
-fill.quantity` (used in `Position.update_on_fill` and
`MultiAssetPortfolio.on_fill`). -/
def signedQty (fill : FillEvent) : ℤ :=
  if fill.side = Side.BUY then fill.quantity else -fill.quantity

/-- Per-symbol position: signed quantity and average entry cost per share. -/
structure Position where
  quantity : ℤ := 0
  avg_cost : ℚ := 0
deriving DecidableEq, Repr

/-- `Position.update_on_fill`, with the Python locals `signed_qty`,
`new_qty` and `total_cost` inlined. -/
def Position.update_on_fill (p : Position) (fill : FillEvent) : Position :=
  if p.quantity + signedQty fill = 0 then { quantity := 0, avg_cost := 0 }
  else if p.quantity = 0 ∨ (0 < p.quantity ∧ 0 < signedQty fill)
      ∨ (p.quantity < 0 ∧ signedQty fill < 0) then
    { quantity := p.quantity + signedQty fill,
      avg_cost := (p.avg_cost * ((|p.quantity| : ℤ) : ℚ)
          + fill.fill_price * ((|signedQty fill| : ℤ) : ℚ))
        / ((|p.quantity + signedQty fill| : ℤ) : ℚ) }
  else if (0 < p.quantity ∧ 0 < p.quantity + signedQty fill)
      ∨ (p.quantity < 0 ∧ p.quantity + signedQty fill < 0) then
    { quantity := p.quantity + signedQty fill, avg_cost := p.avg_cost }
  else
    { quantity := p.quantity + signedQty fill, avg_cost := fill.fill_price }

theorem signedQty_ne_zero (fill : FillEvent) (hq : 0 < fill.quantity) :
    signedQty fill ≠ 0 := by
  unfold signedQty
  split <;> omega

/-- C6: after `update_on_fill`, the quantity is always `old + signed`; a zero
resulting quantity resets `avg_cost` to 0; a same-direction addition (including
from flat) produces the share-weighted mean of the old `avg_cost` (weight
`|old|`) and the fill price (weight `|signed delta|`); a reduction that keeps
the sign leaves `avg_cost` unchanged; a sign flip sets `avg_cost` to the fill
price. -/
theorem claim_C6_position_update (p : Position) (fill : FillEvent)
    (hq : 0 < fill.quantity) :
    ((p.update_on_fill fill).quantity = p.quantity + signedQty fill
      ∧ ((p.update_on_fill fill).quantity = 0 → (p.update_on_fill fill).avg_cost = 0))
    ∧ ((p.quantity = 0 ∨ 0 < p.quantity ∧ 0 < signedQty fill
          ∨ p.quantity < 0 ∧ signedQty fill < 0) →
        (p.update_on_fill fill).avg_cost
          = (p.avg_cost * ((|p.quantity| : ℤ) : ℚ)
              + fill.fill_price * ((|signedQty fill| : ℤ) : ℚ))
            / (((|p.quantity| : ℤ) : ℚ) + ((|signedQty fill| : ℤ) : ℚ)))
    ∧ ((0 < p.quantity ∧ 0 < p.quantity + signedQty fill ∧ signedQty fill < 0
          ∨ p.quantity < 0 ∧ p.quantity + signedQty fill < 0 ∧ 0 < signedQty fill) →
        (p.update_on_fill fill).avg_cost = p.avg_cost)
    ∧ ((0 < p.quantity ∧ p.quantity + signedQty fill < 0
          ∨ p.quantity < 0 ∧ 0 < p.quantity + signedQty fill) →
        (p.update_on_fill fill).avg_cost = fill.fill_price) := by
  have hs := signedQty_ne_zero fill hq
  refine ⟨⟨?_, ?_⟩, ?_, ?_, ?_⟩
  · unfold Position.update_on_fill
    split_ifs with h1 h2 h3 <;> simp [h1]
  · unfold Position.update_on_fill
    split_ifs with h1 h2 h3 <;> intro hz <;> simp_all
  · intro hdir
    have hnz : p.quantity + signedQty fill ≠ 0 := by
      rcases hdir with h | h | h <;> omega
    have habs : |p.quantity + signedQty fill| = |p.quantity| + |signedQty fill| := by
      rcases hdir with h | h | h
      · rw [h]; simp
      · rw [abs_of_pos h.1, abs_of_pos h.2, abs_of_pos (by omega : 0 < p.quantity + signedQty fill)]
      · rw [abs_of_neg h.1, abs_of_neg h.2, abs_of_neg (by omega : p.quantity + signedQty fill < 0)]
        ring
    unfold Position.update_on_fill
    rw [if_neg hnz, if_pos hdir]
    push_cast [habs]
    ring_nf
  · intro hred
    have hnz : p.quantity + signedQty fill ≠ 0 := by rcases hred with h | h <;> omega
    have hdir : ¬ (p.quantity = 0 ∨ 0 < p.quantity ∧ 0 < signedQty fill
        ∨ p.quantity < 0 ∧ signedQty fill < 0) := by
      rcases hred with h | h <;> omega
    have hsame : (0 < p.quantity ∧ 0 < p.quantity + signedQty fill)
        ∨ (p.quantity < 0 ∧ p.quantity + signedQty fill < 0) := by
      rcases hred with h | h
      · exact Or.inl ⟨h.1, h.2.1⟩
      · exact Or.inr ⟨h.1, h.2.1⟩
    unfold Position.update_on_fill
    rw [if_neg hnz, if_neg hdir, if_pos hsame]
  · intro hflip
    have hnz : p.quantity + signedQty fill ≠ 0 := by rcases hflip with h | h <;> omega
    have hdir : ¬ (p.quantity = 0 ∨ 0 < p.quantity ∧ 0 < signedQty fill
        ∨ p.quantity < 0 ∧ signedQty fill < 0) := by
      rcases hflip with h | h <;> omega
    have hsame : ¬ ((0 < p.quantity ∧ 0 < p.quantity + signedQty fill)
        ∨ (p.quantity < 0 ∧ p.quantity + signedQty fill < 0)) := by
      rcases hflip with h | h <;> omega
    unfold Position.update_on_fill
    rw [if_neg hnz, if_neg hdir, if_neg hsame]

/-- Witness for C6: buying 2 at price 20 on a long position of 5 at cost 10
yields the weighted average `(10 * 5 + 20 * 2) / 7 = 90 / 7`. -/
theorem claim_C6_witness :
    0 < (⟨0, "A", Side.BUY, 2, 20, 0, 0⟩ : FillEvent).quantity
    ∧ ((⟨5, 10⟩ : Position).update_on_fill ⟨0, "A", Side.BUY, 2, 20, 0, 0⟩).avg_cost = 90 / 7 := by
  refine ⟨by decide, ?_⟩
  have h := (claim_C6_position_update ⟨5, 10⟩ ⟨0, "A", Side.BUY, 2, 20, 0, 0⟩ (by decide)).2.1
    (Or.inr (Or.inl (by decide)))
  rw [h]
  norm_num [signedQty]

/-! ## Python dict embedding

Association lists with Python dict semantics: lookup finds the (unique) entry
for a key; assignment replaces an existing entry in place or appends a fresh
key at the end.  Key lists stay duplicate-free. -/

/-- Dict lookup, `d.get(k)`. -/
def dictGet {β : Type} : List (String × β) → String → Option β
  | [], _ => none
  | (k', v) :: rest, k => if k' = k then some v else dictGet rest k

/-- Dict assignment, `d[k] = v`. -/
def dictSet {β : Type} : List (String × β) → String → β → List (String × β)
  | [], k, v => [(k, v)]
  | (k', v') :: rest, k, v =>
      if k' = k then (k', v) :: rest else (k', v') :: dictSet rest k v

/-- Keys of a dict. -/
def dictKeys {β : Type} (d : List (String × β)) : List String := d.map Prod.fst

theorem dictGet_dictSet {β : Type} (d : List (String × β)) (k k' : String) (v : β) :
    dictGet (dictSet d k v) k' = if k = k' then some v else dictGet d k' := by
  induction d with
  | nil => by_cases h : k = k' <;> simp [dictSet, dictGet, h]
  | cons e rest ih =>
      obtain ⟨k₀, v₀⟩ := e
      by_cases h₀ : k₀ = k
      · subst h₀
        rw [dictSet, if_pos rfl]
        simp only [dictGet]
        by_cases h₁ : k₀ = k' <;> simp [h₁]
      · rw [dictSet, if_neg h₀]
        simp only [dictGet]
        by_cases h₁ : k₀ = k'
        · have hk : ¬ k = k' := fun hh => h₀ (h₁.trans hh.symm)
          rw [if_pos h₁, if_neg hk, if_pos h₁]
        · rw [if_neg h₁, if_neg h₁, ih]

theorem dictKeys_cons {β : Type} (e : String × β) (d : List (String × β)) :
    dictKeys (e :: d) = e.1 :: dictKeys d := rfl

theorem dictKeys_dictSet {β : Type} (d : List (String × β)) (k : String) (v : β) :
    (k ∈ dictKeys d ∧ dictKeys (dictSet d k v) = dictKeys d)
    ∨ (k ∉ dictKeys d ∧ dictKeys (dictSet d k v) = dictKeys d ++ [k]) := by
  induction d with
  | nil => right; simp [dictSet, dictKeys]
  | cons e rest ih =>
      obtain ⟨k₀, v₀⟩ := e
      by_cases h₀ : k₀ = k
      · left
        constructor
        · rw [dictKeys_cons, h₀]; exact List.mem_cons_self k _
        · simp [dictSet, h₀, dictKeys]
      · rcases ih with ⟨hm, he⟩ | ⟨hm, he⟩
        · left
          constructor
          · rw [dictKeys_cons]; exact List.mem_cons_of_mem _ hm
          · rw [dictSet, if_neg h₀, dictKeys_cons, dictKeys_cons, he]
        · right
          constructor
          · rw [dictKeys_cons, List.mem_cons, not_or]
            exact ⟨fun hh => h₀ hh.symm, hm⟩
          · rw [dictSet, if_neg h₀, dictKeys_cons, dictKeys_cons, he]
            rfl

theorem nodup_dictKeys_dictSet {β : Type} (d : List (String × β)) (k : String) (v : β)
    (h : (dictKeys d).Nodup) : (dictKeys (dictSet d k v)).Nodup := by
  rcases dictKeys_dictSet d k v with ⟨_, he⟩ | ⟨hm, he⟩
  · rw [he]; exact h
  · rw [he, List.nodup_append]
    exact ⟨h, List.nodup_singleton k, by simpa [List.disjoint_singleton] using hm⟩

/-! ## Portfolio (`portfolio/simple_portfolio.py`, class `MultiAssetPortfolio`) -/

/-- `config.RiskConfig`. -/
structure RiskConfig where
  max_position_per_symbol : ℤ := 1000
  stop_loss_pct : ℚ := 5 / 100
  max_drawdown_pct : ℚ := 20 / 100
deriving DecidableEq, Repr

/-- `simple_portfolio.RiskState`.  `halt_reason` carries the drawdown value
that the Python code formats into the reason string (a pure function of it). -/
structure RiskState where
  trading_halted : Bool := false
  halt_reason : Option ℚ := none
deriving DecidableEq, Repr

/-- `simple_portfolio.MultiAssetPortfolio` state. -/
structure MultiAssetPortfolio where
  initial_cash : ℚ
  risk_cfg : RiskConfig
  cash : ℚ
  positions : List (String × Position) := []
  last_mid : List (String × ℚ) := []
  equity_curve : List ℚ := []
  peak_equity : ℚ
  equity_acc : ℚ
  risk_state : RiskState := {}
  total_commission : ℚ := 0
  total_slippage_cost : ℚ := 0
deriving DecidableEq, Repr

/-- Constructor plus `__post_init__`: cash, peak and the equity accumulator
`_equity` (field `equity_acc` here) all start at `initial_cash`. -/
def mkPortfolio (initial_cash : ℚ) (risk_cfg : RiskConfig) : MultiAssetPortfolio :=
  { initial_cash := initial_cash, risk_cfg := risk_cfg, cash := initial_cash,
    peak_equity := initial_cash, equity_acc := initial_cash }

/-- Contribution of one positions entry to equity: `quantity * last_mid[sym]`
when the mid is known, else 0. -/
def posContrib (mids : List (String × ℚ)) (e : String × Position) : ℚ :=
  match dictGet mids e.1 with
  | some m => (e.2.quantity : ℚ) * m
  | none => 0

/-- Sum over all positions entries of `quantity * last_mid[sym]`, symbols
without a known mid contributing 0 (the loop of `_recompute_equity`). -/
def sumContrib (ps : List (String × Position)) (mids : List (String × ℚ)) : ℚ :=
  (ps.map (posContrib mids)).sum

/-- `MultiAssetPortfolio._recompute_equity`. -/
def MultiAssetPortfolio.recompute_equity (pf : MultiAssetPortfolio) : ℚ :=
  pf.cash + sumContrib pf.positions pf.last_mid

/-- `MultiAssetPortfolio.get_position`: returns the existing position or
inserts (and returns) a fresh zero position. -/
def MultiAssetPortfolio.get_position (pf : MultiAssetPortfolio) (symbol : String) :
    Position × MultiAssetPortfolio :=
  match dictGet pf.positions symbol with
  | some p => (p, pf)
  | none => (⟨0, 0⟩, { pf with positions := dictSet pf.positions symbol ⟨0, 0⟩ })

/-- `MultiAssetPortfolio.can_place_order` (note the side effect of
`get_position` on the positions dict). -/
def MultiAssetPortfolio.can_place_order (pf : MultiAssetPortfolio) (symbol : String)
    (side : Side) (qty : ℤ) : Bool × MultiAssetPortfolio :=
  let r := pf.get_position symbol
  let signed : ℤ := if side = Side.BUY then qty else -qty
  (decide (|r.1.quantity + signed| ≤ pf.risk_cfg.max_position_per_symbol), r.2)

/-- `MultiAssetPortfolio.on_fill`. -/
def MultiAssetPortfolio.on_fill (pf : MultiAssetPortfolio) (fill : FillEvent) :
    MultiAssetPortfolio :=
  let r := pf.get_position fill.symbol
  let pos := r.1
  let old_qty := pos.quantity
  let cash_delta : ℚ := -(fill.fill_price * (signedQty fill : ℚ)) - fill.commission
  let pos' := pos.update_on_fill fill
  let pf₂ := { r.2 with
    cash := r.2.cash + cash_delta,
    total_commission := r.2.total_commission + fill.commission,
    total_slippage_cost := r.2.total_slippage_cost + fill.slippage * (signedQty fill : ℚ),
    positions := dictSet r.2.positions fill.symbol pos' }
  match dictGet pf₂.last_mid fill.symbol with
  | none => { pf₂ with equity_acc := pf₂.recompute_equity }
  | some mid =>
      { pf₂ with equity_acc := pf₂.equity_acc + cash_delta + ((pos'.quantity - old_qty : ℤ) : ℚ) * mid }

/-- `MultiAssetPortfolio.mark_to_market`: updates `last_mid`, moves the equity
accumulator by `qty * mid` (unknown previous mid) or `qty * (mid - prev)`,
appends to the equity curve, raises the peak, and latches the drawdown halt. -/
def MultiAssetPortfolio.mark_to_market (pf : MultiAssetPortfolio) (symbol : String)
    (mid : ℚ) : MultiAssetPortfolio :=
  let prev_mid := dictGet pf.last_mid symbol
  let qty : ℤ := match dictGet pf.positions symbol with
    | some p => p.quantity
    | none => 0
  let eq' : ℚ := match prev_mid with
    | none => pf.equity_acc + (qty : ℚ) * mid
    | some prev => pf.equity_acc + (qty : ℚ) * (mid - prev)
  let peak' := max pf.peak_equity eq'
  let rs' : RiskState :=
    (if 0 < peak' then
      (if pf.risk_cfg.max_drawdown_pct ≤ (peak' - eq') / peak'
          ∧ pf.risk_state.trading_halted = false then
        { trading_halted := true, halt_reason := some ((peak' - eq') / peak') }
      else pf.risk_state)
    else pf.risk_state)
  { pf with
    last_mid := dictSet pf.last_mid symbol mid
    equity_acc := eq'
    equity_curve := pf.equity_curve ++ [eq']
    peak_equity := peak'
    risk_state := rs' }

/-- `MultiAssetPortfolio.check_stop_loss`. -/
def MultiAssetPortfolio.check_stop_loss (pf : MultiAssetPortfolio) (symbol : String) :
    Option Side :=
  match dictGet pf.positions symbol with
  | none => none
  | some pos =>
      if pos.quantity = 0 then none
      else
        match dictGet pf.last_mid symbol with
        | none => none
        | some mid =>
            if pos.avg_cost = 0 then none
            else if 0 < pos.quantity ∧ mid ≤ pos.avg_cost * (1 - pf.risk_cfg.stop_loss_pct) then
              some Side.SELL
            else if pos.quantity < 0 ∧ pos.avg_cost * (1 + pf.risk_cfg.stop_loss_pct) ≤ mid then
              some Side.BUY
            else none

/-! ### Sum lemmas for the equity invariant -/

theorem sumContrib_cons (e : String × Position) (ps : List (String × Position))
    (mids : List (String × ℚ)) :
    sumContrib (e :: ps) mids = posContrib mids e + sumContrib ps mids := by
  simp [sumContrib]

theorem sumContrib_dictSet (ps : List (String × Position)) (mids : List (String × ℚ))
    (sym : String) (p : Position) :
    sumContrib (dictSet ps sym p) mids
      = sumContrib ps mids
        - (match dictGet ps sym with
            | some old => posContrib mids (sym, old)
            | none => 0)
        + posContrib mids (sym, p) := by
  induction ps with
  | nil => simp [dictSet, dictGet, sumContrib]
  | cons e rest ih =>
      obtain ⟨k₀, v₀⟩ := e
      by_cases h₀ : k₀ = sym
      · subst h₀
        simp [dictSet, dictGet, sumContrib_cons]
        ring
      · simp [dictSet, dictGet, h₀, sumContrib_cons, ih]
        ring

theorem posContrib_set_mid_ne (mids : List (String × ℚ)) (sym : String) (m : ℚ)
    (e : String × Position) (h : e.1 ≠ sym) :
    posContrib (dictSet mids sym m) e = posContrib mids e := by
  unfold posContrib
  rw [dictGet_dictSet, if_neg (fun hh => h hh.symm)]

theorem sumContrib_set_mid_not_mem (ps : List (String × Position))
    (mids : List (String × ℚ)) (sym : String) (m : ℚ) (h : sym ∉ dictKeys ps) :
    sumContrib ps (dictSet mids sym m) = sumContrib ps mids := by
  induction ps with
  | nil => simp [sumContrib]
  | cons e rest ih =>
      rw [dictKeys_cons, List.mem_cons, not_or] at h
      rw [sumContrib_cons, sumContrib_cons,
        posContrib_set_mid_ne mids sym m e (fun hh => h.1 hh.symm), ih h.2]

theorem sumContrib_set_mid (ps : List (String × Position)) (mids : List (String × ℚ))
    (sym : String) (m : ℚ) (hnod : (dictKeys ps).Nodup) :
    sumContrib ps (dictSet mids sym m)
      = sumContrib ps mids
        - (match dictGet ps sym with
            | some pos => posContrib mids (sym, pos)
            | none => 0)
        + (match dictGet ps sym with
            | some pos => (pos.quantity : ℚ) * m
            | none => 0) := by
  induction ps with
  | nil => simp [sumContrib, dictGet]
  | cons e rest ih =>
      obtain ⟨k₀, v₀⟩ := e
      rw [dictKeys_cons, List.nodup_cons] at hnod
      by_cases h₀ : k₀ = sym
      · subst h₀
        have hrest : sumContrib rest (dictSet mids k₀ m) = sumContrib rest mids :=
          sumContrib_set_mid_not_mem rest mids k₀ m hnod.1
        rw [sumContrib_cons, sumContrib_cons, hrest]
        simp [dictGet, posContrib, dictGet_dictSet]
        ring
      · rw [sumContrib_cons, sumContrib_cons,
          posContrib_set_mid_ne mids sym m (k₀, v₀) (by simpa using h₀), ih hnod.2]
        simp [dictGet, h₀]
        ring

/-! ### The equity invariant (claim C1) -/

/-- Portfolio operations the C1 claim quantifies over: any interleaving of
`on_fill` and `mark_to_market`. -/
inductive PortfolioOp
  | fillOp (f : FillEvent)
  | mtmOp (symbol : String) (mid : ℚ)

/-- Apply one portfolio operation. -/
def applyOp (pf : MultiAssetPortfolio) : PortfolioOp → MultiAssetPortfolio
  | .fillOp f => pf.on_fill f
  | .mtmOp s m => pf.mark_to_market s m

/-- Apply a sequence of portfolio operations. -/
def applyOps (pf : MultiAssetPortfolio) (ops : List PortfolioOp) : MultiAssetPortfolio :=
  ops.foldl applyOp pf

/-- The maintained-equity invariant: the incrementally maintained `_equity`
accumulator equals cash plus the marked value of all positions. -/
def equityInv (pf : MultiAssetPortfolio) : Prop :=
  pf.equity_acc = pf.cash + sumContrib pf.positions pf.last_mid

theorem equityInv_on_fill (pf : MultiAssetPortfolio) (fill : FillEvent)
    (h : equityInv pf) (hnod : (dictKeys pf.positions).Nodup) :
    equityInv (pf.on_fill fill) ∧ (dictKeys (pf.on_fill fill).positions).Nodup := by
  unfold MultiAssetPortfolio.on_fill MultiAssetPortfolio.get_position
  cases hget : dictGet pf.positions fill.symbol with
  | some p =>
      simp only [hget]
      cases hmid : dictGet pf.last_mid fill.symbol with
      | none =>
          constructor
          · simp [equityInv, MultiAssetPortfolio.recompute_equity, hmid]
          · exact nodup_dictKeys_dictSet _ _ _ hnod
      | some mid =>
          constructor
          · simp only [equityInv, hmid]
            rw [sumContrib_dictSet, hget]
            simp only [posContrib, hmid]
            rw [h]
            push_cast
            ring
          · exact nodup_dictKeys_dictSet _ _ _ hnod
  | none =>
      simp only [hget]
      have hnod₀ : (dictKeys (dictSet pf.positions fill.symbol ⟨0, 0⟩)).Nodup :=
        nodup_dictKeys_dictSet _ _ _ hnod
      have hget₀ : dictGet (dictSet pf.positions fill.symbol (⟨0, 0⟩ : Position)) fill.symbol
          = some ⟨0, 0⟩ := by
        rw [dictGet_dictSet]; simp
      have hsum₀ : sumContrib (dictSet pf.positions fill.symbol ⟨0, 0⟩) pf.last_mid
          = sumContrib pf.positions pf.last_mid := by
        rw [sumContrib_dictSet, hget]
        simp [posContrib]
        cases dictGet pf.last_mid fill.symbol <;> simp
      cases hmid : dictGet pf.last_mid fill.symbol with
      | none =>
          constructor
          · simp [equityInv, MultiAssetPortfolio.recompute_equity, hmid]
          · exact nodup_dictKeys_dictSet _ _ _ hnod₀
      | some mid =>
          constructor
          · simp only [equityInv, hmid]
            rw [sumContrib_dictSet, hget₀, hsum₀]
            simp only [posContrib, hmid]
            rw [h]
            push_cast
            ring
          · exact nodup_dictKeys_dictSet _ _ _ hnod₀

theorem equityInv_mark_to_market (pf : MultiAssetPortfolio) (symbol : String) (mid : ℚ)
    (h : equityInv pf) (hnod : (dictKeys pf.positions).Nodup) :
    equityInv (pf.mark_to_market symbol mid)
      ∧ (dictKeys (pf.mark_to_market symbol mid).positions).Nodup := by
  have h' : pf.equity_acc = pf.cash + sumContrib pf.positions pf.last_mid := h
  unfold MultiAssetPortfolio.mark_to_market
  refine ⟨?_, by simpa using hnod⟩
  simp only [equityInv]
  rw [sumContrib_set_mid pf.positions pf.last_mid symbol mid hnod]
  cases hget : dictGet pf.positions symbol with
  | none =>
      cases hmid : dictGet pf.last_mid symbol with
      | none => simp only [hget, hmid]; push_cast; linarith
      | some prev => simp only [hget, hmid]; push_cast; linear_combination h'
  | some pos =>
      cases hmid : dictGet pf.last_mid symbol with
      | none =>
          simp only [hget, hmid, posContrib]
          linear_combination h'
      | some prev =>
          simp only [hget, hmid, posContrib]
          linear_combination h'

/-- C1: starting from a freshly constructed portfolio, after any interleaving
of `on_fill` and `mark_to_market` operations the maintained equity equals cash
plus the sum over positions of `quantity * last_mid[sym]`, symbols without a
known mid contributing 0 (exactly, in rational arithmetic). -/
theorem claim_C1_equity_invariant (initial_cash : ℚ) (risk : RiskConfig)
    (ops : List PortfolioOp) :
    (applyOps (mkPortfolio initial_cash risk) ops).equity_acc
      = (applyOps (mkPortfolio initial_cash risk) ops).cash
        + sumContrib (applyOps (mkPortfolio initial_cash risk) ops).positions
            (applyOps (mkPortfolio initial_cash risk) ops).last_mid := by
  suffices h : ∀ (ops : List PortfolioOp) (pf : MultiAssetPortfolio),
      equityInv pf → (dictKeys pf.positions).Nodup →
      equityInv (applyOps pf ops) ∧ (dictKeys (applyOps pf ops).positions).Nodup by
    exact (h ops (mkPortfolio initial_cash risk)
      (by simp [equityInv, mkPortfolio, sumContrib])
      (by simp [mkPortfolio, dictKeys])).1
  intro ops
  induction ops with
  | nil => intro pf h hn; exact ⟨h, hn⟩
  | cons op rest ih =>
      intro pf h hn
      have step : equityInv (applyOp pf op) ∧ (dictKeys (applyOp pf op).positions).Nodup := by
        cases op with
        | fillOp f => exact equityInv_on_fill pf f h hn
        | mtmOp s m => exact equityInv_mark_to_market pf s m h hn
      exact ih (applyOp pf op) step.1 step.2

/-! ## Moving-average strategy (`strategy/moving_average.py`) -/

/-- `events.SignalEvent`. -/
structure SignalEvent where
  timestamp : ℤ
  symbol : String
  side : Side
deriving DecidableEq, Repr

/-- Per-symbol strategy state: the two bounded price buffers (front = oldest),
their running sums, and the last emitted side. -/
structure SymbolState where
  long_prices : List ℚ := []
  short_prices : List ℚ := []
  long_sum : ℚ := 0
  short_sum : ℚ := 0
  last_signal : Option Side := none
deriving DecidableEq, Repr

/-- Fresh per-symbol state, as built in `__post_init__`. -/
def initSymbolState : SymbolState := {}

/-- Append on a `deque(maxlen=cap)`: when the buffer is at capacity the
leftmost element is evicted. -/
def dequePush (q : List ℚ) (cap : ℕ) (x : ℚ) : List ℚ :=
  if q.length = cap then q.tail ++ [x] else q ++ [x]

/-- Running-sum update when pushing `px`: subtract the evicted element when
the buffer is at capacity, then add the new price. -/
def bumpSum (sum : ℚ) (q : List ℚ) (cap : ℕ) (px : ℚ) : ℚ :=
  (if q.length = cap then sum - q.headD 0 else sum) + px

/-- One `on_market` step for a single symbol of
`MovingAverageCrossStrategy`: push the mid into both buffers maintaining the
running sums, return during warm-up, otherwise compare the two averages
against `last_signal`. -/
def stepSymbol (S L : ℕ) (st : SymbolState) (px : ℚ) : Option Side × SymbolState :=
  let st' : SymbolState :=
    { st with
      long_prices := dequePush st.long_prices L px
      short_prices := dequePush st.short_prices S px
      long_sum := bumpSum st.long_sum st.long_prices L px
      short_sum := bumpSum st.short_sum st.short_prices S px }
  if (dequePush st.long_prices L px).length < L then (none, st')
  else
    if bumpSum st.short_sum st.short_prices S px / (S : ℚ)
        > bumpSum st.long_sum st.long_prices L px / (L : ℚ)
        ∧ st.last_signal ≠ some Side.BUY then
      (some Side.BUY, { st' with last_signal := some Side.BUY })
    else if bumpSum st.short_sum st.short_prices S px / (S : ℚ)
        < bumpSum st.long_sum st.long_prices L px / (L : ℚ)
        ∧ st.last_signal ≠ some Side.SELL then
      (some Side.SELL, { st' with last_signal := some Side.SELL })
    else (none, st')

/-- Run a price sequence for one symbol, collecting the per-tick outputs. -/
def runSym (S L : ℕ) : SymbolState → List ℚ → List (Option Side) × SymbolState
  | st, [] => ([], st)
  | st, px :: rest =>
      let r := stepSymbol S L st px
      let rr := runSym S L r.2 rest
      (r.1 :: rr.1, rr.2)

/-- The emitted sides, in order. -/
def signalsOf : List (Option Side) → List Side
  | [] => []
  | none :: rest => signalsOf rest
  | some s :: rest => s :: signalsOf rest

theorem stepSymbol_long_prices (S L : ℕ) (st : SymbolState) (px : ℚ) :
    ((stepSymbol S L st px).2).long_prices = dequePush st.long_prices L px := by
  simp only [stepSymbol]
  split_ifs <;> rfl

theorem stepSymbol_short_prices (S L : ℕ) (st : SymbolState) (px : ℚ) :
    ((stepSymbol S L st px).2).short_prices = dequePush st.short_prices S px := by
  simp only [stepSymbol]
  split_ifs <;> rfl

theorem stepSymbol_none_of_warmup (S L : ℕ) (st : SymbolState) (px : ℚ)
    (h : (dequePush st.long_prices L px).length < L) :
    (stepSymbol S L st px).1 = none := by
  simp only [stepSymbol]
  rw [if_pos h]

/-- The running sums track the buffer contents. -/
def sumInv (st : SymbolState) : Prop :=
  st.long_sum = st.long_prices.sum ∧ st.short_sum = st.short_prices.sum

theorem bumpSum_eq_sum (sum : ℚ) (q : List ℚ) (cap : ℕ) (px : ℚ) (h : sum = q.sum) :
    bumpSum sum q cap px = (dequePush q cap px).sum := by
  unfold bumpSum dequePush
  by_cases hc : q.length = cap
  · rw [if_pos hc, if_pos hc]
    cases q with
    | nil => simp [h]
    | cons a t =>
        simp [List.sum_append, h]
        try ring
  · rw [if_neg hc, if_neg hc]
    simp [List.sum_append, h]

theorem stepSymbol_sumInv (S L : ℕ) (st : SymbolState) (px : ℚ) (h : sumInv st) :
    sumInv ((stepSymbol S L st px).2)
    ∧ ((stepSymbol S L st px).2).long_sum = bumpSum st.long_sum st.long_prices L px
    ∧ ((stepSymbol S L st px).2).short_sum = bumpSum st.short_sum st.short_prices S px := by
  obtain ⟨hl, hs⟩ := h
  have h1 : bumpSum st.long_sum st.long_prices L px = (dequePush st.long_prices L px).sum :=
    bumpSum_eq_sum _ _ _ _ hl
  have h2 : bumpSum st.short_sum st.short_prices S px = (dequePush st.short_prices S px).sum :=
    bumpSum_eq_sum _ _ _ _ hs
  simp only [stepSymbol]
  split_ifs with hw hb hsl
  · exact ⟨⟨h1, h2⟩, rfl, rfl⟩
  · exact ⟨⟨h1, h2⟩, rfl, rfl⟩
  · exact ⟨⟨h1, h2⟩, rfl, rfl⟩
  · exact ⟨⟨h1, h2⟩, rfl, rfl⟩

theorem stepSymbol_last (S L : ℕ) (st : SymbolState) (px : ℚ) :
    ((stepSymbol S L st px).1 = none
      ∧ ((stepSymbol S L st px).2).last_signal = st.last_signal)
    ∨ (∃ s, (stepSymbol S L st px).1 = some s ∧ st.last_signal ≠ some s
        ∧ ((stepSymbol S L st px).2).last_signal = some s) := by
  simp only [stepSymbol]
  split_ifs with h1 h2 h3
  · exact Or.inl ⟨rfl, rfl⟩
  · exact Or.inr ⟨Side.BUY, rfl, h2.2, rfl⟩
  · exact Or.inr ⟨Side.SELL, rfl, h3.2, rfl⟩
  · exact Or.inl ⟨rfl, rfl⟩

/-- Decorate the emitted list with the state's remembered last side, so that
the no-repeat invariant becomes a plain adjacent-distinctness chain. -/
def withLast (st : SymbolState) (sigs : List Side) : List Side :=
  match st.last_signal with
  | some s => s :: sigs
  | none => sigs

theorem chain_withLast (S L : ℕ) (pxs : List ℚ) : ∀ st : SymbolState,
    List.Chain' (fun a b => a ≠ b) (withLast st (signalsOf (runSym S L st pxs).1)) := by
  induction pxs with
  | nil =>
      intro st
      unfold runSym signalsOf withLast
      cases st.last_signal <;> simp
  | cons px rest ih =>
      intro st
      show List.Chain' _ (withLast st (signalsOf ((stepSymbol S L st px).1
        :: (runSym S L (stepSymbol S L st px).2 rest).1)))
      rcases stepSymbol_last S L st px with ⟨hnone, hlast⟩ | ⟨s, hsome, hne, hlast⟩
      · rw [hnone]
        show List.Chain' _ (withLast st (signalsOf (runSym S L (stepSymbol S L st px).2 rest).1))
        have := ih (stepSymbol S L st px).2
        unfold withLast at this ⊢
        rw [hlast] at this
        exact this
      · rw [hsome]
        show List.Chain' _ (withLast st (s :: signalsOf (runSym S L (stepSymbol S L st px).2 rest).1))
        have hrest := ih (stepSymbol S L st px).2
        unfold withLast at hrest
        rw [hlast] at hrest
        unfold withLast
        cases hst : st.last_signal with
        | none => exact hrest
        | some s₀ =>
            rw [List.chain'_cons]
            refine ⟨?_, hrest⟩
            intro hss
            exact hne (by rw [hst, hss])

theorem dequePush_length_succ (q : List ℚ) (cap : ℕ) (x : ℚ) (h : q.length < cap) :
    (dequePush q cap x).length = q.length + 1 := by
  unfold dequePush
  rw [if_neg (by omega)]
  simp

theorem runSym_warmup (S L : ℕ) (pxs : List ℚ) : ∀ (st : SymbolState) (i : ℕ),
    st.long_prices.length + i + 1 < L → (runSym S L st pxs).1.getD i none = none := by
  induction pxs with
  | nil => intro st i _; simp [runSym]
  | cons px rest ih =>
      intro st i h
      show ((stepSymbol S L st px).1 :: (runSym S L (stepSymbol S L st px).2 rest).1).getD i none
        = none
      have hlen : (dequePush st.long_prices L px).length = st.long_prices.length + 1 :=
        dequePush_length_succ _ _ _ (by omega)
      cases i with
      | zero =>
          simp only [List.getD_cons_zero]
          exact stepSymbol_none_of_warmup S L st px (by omega)
      | succ j =>
          simp only [List.getD_cons_succ]
          refine ih (stepSymbol S L st px).2 j ?_
          rw [stepSymbol_long_prices, hlen]
          omega

/-- C5: for the moving-average strategy on one symbol: (i) every tick strictly
before the long buffer reaches `L` samples emits nothing; (ii) once the long
buffer is full after a push, the step emits BUY iff the short average of the
updated buffers exceeds the long average and the last emitted side is not BUY,
emits SELL iff the short average is below the long average and the last
emitted side is not SELL, and emits nothing on exact equality; (iii) over any
price sequence from the fresh state, no two consecutive emitted signals share
a side. -/
theorem claim_C5_moving_average (S L : ℕ) :
    (∀ (pxs : List ℚ) (i : ℕ), i + 1 < L →
      (runSym S L initSymbolState pxs).1.getD i none = none)
    ∧ (∀ (pxs : List ℚ) (px : ℚ),
        ((stepSymbol S L (runSym S L initSymbolState pxs).2 px).2).long_prices.length = L →
        ((stepSymbol S L (runSym S L initSymbolState pxs).2 px).1 = some Side.BUY
          ↔ ((stepSymbol S L (runSym S L initSymbolState pxs).2 px).2).short_prices.sum / (S : ℚ)
              > ((stepSymbol S L (runSym S L initSymbolState pxs).2 px).2).long_prices.sum / (L : ℚ)
            ∧ ((runSym S L initSymbolState pxs).2).last_signal ≠ some Side.BUY)
        ∧ ((stepSymbol S L (runSym S L initSymbolState pxs).2 px).1 = some Side.SELL
          ↔ ((stepSymbol S L (runSym S L initSymbolState pxs).2 px).2).short_prices.sum / (S : ℚ)
              < ((stepSymbol S L (runSym S L initSymbolState pxs).2 px).2).long_prices.sum / (L : ℚ)
            ∧ ((runSym S L initSymbolState pxs).2).last_signal ≠ some Side.SELL)
        ∧ (((stepSymbol S L (runSym S L initSymbolState pxs).2 px).2).short_prices.sum / (S : ℚ)
              = ((stepSymbol S L (runSym S L initSymbolState pxs).2 px).2).long_prices.sum / (L : ℚ)
            → (stepSymbol S L (runSym S L initSymbolState pxs).2 px).1 = none))
    ∧ (∀ pxs : List ℚ,
        List.Chain' (fun a b => a ≠ b) (signalsOf (runSym S L initSymbolState pxs).1)) := by
  have hsum : ∀ pxs : List ℚ, sumInv ((runSym S L initSymbolState pxs).2) := by
    intro pxs
    suffices hgen : ∀ (l : List ℚ) (st : SymbolState), sumInv st → sumInv ((runSym S L st l).2) by
      exact hgen pxs initSymbolState ⟨rfl, rfl⟩
    intro l
    induction l with
    | nil => intro st h; exact h
    | cons px rest ih =>
        intro st h
        exact ih _ (stepSymbol_sumInv S L st px h).1
  refine ⟨fun pxs i hi => runSym_warmup S L pxs initSymbolState i (by simp [initSymbolState]; omega),
    ?_, ?_⟩
  · intro pxs px hfull
    obtain ⟨hinv, hlsum, hssum⟩ := stepSymbol_sumInv S L ((runSym S L initSymbolState pxs).2) px
      (hsum pxs)
    set st := (runSym S L initSymbolState pxs).2 with hst
    have hlong : ((stepSymbol S L st px).2).long_sum = ((stepSymbol S L st px).2).long_prices.sum :=
      hinv.1
    have hshort : ((stepSymbol S L st px).2).short_sum
        = ((stepSymbol S L st px).2).short_prices.sum := hinv.2
    rw [← hlong, ← hshort, hlsum, hssum]
    have hnotlt : ¬ (dequePush st.long_prices L px).length < L := by
      rw [← stepSymbol_long_prices S L st px, hfull]
      omega
    simp only [stepSymbol]
    rw [if_neg hnotlt]
    split_ifs with h2 h3
    · refine ⟨⟨fun _ => h2, fun _ => rfl⟩, ⟨?_, ?_⟩, ?_⟩
      · intro hE; exact absurd hE (by simp)
      · intro hcond; exact absurd hcond.1 (lt_asymm h2.1)
      · intro heq; rw [heq] at h2; exact absurd h2.1 (lt_irrefl _)
    · refine ⟨⟨?_, ?_⟩, ⟨fun _ => h3, fun _ => rfl⟩, ?_⟩
      · intro hE; exact absurd hE (by simp)
      · intro hcond; exact absurd hcond.1 (lt_asymm h3.1)
      · intro heq; rw [heq] at h3; exact absurd h3.1 (lt_irrefl _)
    · refine ⟨⟨fun hE => absurd hE (by simp), fun hcond => absurd hcond h2⟩,
        ⟨fun hE => absurd hE (by simp), fun hcond => absurd hcond h3⟩, fun _ => rfl⟩
  · intro pxs
    have h := chain_withLast S L pxs initSymbolState
    unfold withLast initSymbolState at h
    exact h

/-! ## Execution simulator (`execution/simulated_execution.py`)

The seeded RNG `random.Random(rng_seed)` is embedded as a stream `rng : ℕ → ℚ`
of successive draws together with a cursor `rng_index` in the handler state;
`self._rng.random()` reads `rng rng_index` and advances the cursor.  Pending
orders carry a ghost tag `oid` (the submission index) so that fills can be
attributed to the order that produced them. -/

/-- `config.MicrostructureConfig`. -/
structure MicrostructureConfig where
  latency_events : ℕ := 1
  default_tick_volume : ℚ := 5000
  max_participation_rate : ℚ := 2 / 10
  queue_ahead_fraction : ℚ := 7 / 10
  base_fill_probability : ℚ := 8 / 10
deriving DecidableEq, Repr

/-- `config.ExecutionConfig`. -/
structure ExecutionConfig where
  default_spread_bps : ℚ := 5
  impact_bps_per_unit : ℚ := 2
  impact_volume : ℚ := 10000
  rng_seed : ℤ := 7
  micro : MicrostructureConfig := {}
deriving DecidableEq, Repr

/-- `simulated_execution._PendingOrder`, extended with the ghost `oid`. -/
structure PendingOrder where
  oid : ℕ
  order : OrderEvent
  submitted_tick : ℕ
  remaining : ℤ
  commission_charged : Bool := false
deriving DecidableEq, Repr

/-- A fill tagged with the ghost id of the order that produced it. -/
structure TaggedFill where
  oid : ℕ
  fill : FillEvent
deriving DecidableEq, Repr

/-- `simulated_execution.SimulatedExecutionHandler` state. -/
structure ExecState where
  commission_per_trade : ℚ
  cfg : ExecutionConfig
  tick_index : String → ℕ
  pending : String → List PendingOrder
  rng_index : ℕ
  next_oid : ℕ

/-- Handler construction plus `__post_init__` (the RNG cursor starts at the
beginning of the seeded stream). -/
def mkExecState (commission_per_trade : ℚ) (cfg : ExecutionConfig) : ExecState :=
  { commission_per_trade := commission_per_trade, cfg := cfg,
    tick_index := fun _ => 0, pending := fun _ => [], rng_index := 0, next_oid := 0 }

/-- `SimulatedExecutionHandler.submit`. -/
def ExecState.submit (ex : ExecState) (order : OrderEvent) : ExecState :=
  { ex with
    pending := Function.update ex.pending order.symbol
      (ex.pending order.symbol
        ++ [{ oid := ex.next_oid, order := order,
              submitted_tick := ex.tick_index order.symbol,
              remaining := order.quantity }])
    next_oid := ex.next_oid + 1 }

/-- `SimulatedExecutionHandler._limit_is_touching`. -/
def limit_is_touching (order : OrderEvent) (market : MarketEvent) : Bool :=
  match order.limit_price with
  | none => false
  | some limit =>
      match order.side with
      | .BUY =>
          decide ((match market.ask with | some a => a | none => market.mid) ≤ limit)
      | .SELL =>
          decide (limit ≤ (match market.bid with | some b => b | none => market.mid))

/-- `market.spread_bps if market.spread_bps is not None else cfg.default_spread_bps`. -/
def spread_bps_or_default (cfg : ExecutionConfig) (market : MarketEvent) : ℚ :=
  match market.spread_bps with
  | some s => s
  | none => cfg.default_spread_bps

/-- `SimulatedExecutionHandler._effective_spread`. -/
def effective_spread (cfg : ExecutionConfig) (market : MarketEvent) : ℚ :=
  match market.bid, market.ask with
  | some b, some a =>
      if b ≤ a then a - b
      else market.mid * (spread_bps_or_default cfg market / 10000)
  | _, _ => market.mid * (spread_bps_or_default cfg market / 10000)

/-- `SimulatedExecutionHandler._fill`: spread + linear-impact price, signed
slippage versus mid. -/
def execFill (cfg : ExecutionConfig) (order : OrderEvent) (market : MarketEvent)
    (qty : ℤ) (commission : ℚ) : FillEvent :=
  let half_spread := (1 / 2) * effective_spread cfg market
  let impact_bps := cfg.impact_bps_per_unit * ((qty : ℚ) / max cfg.impact_volume 1)
  let impact := market.mid * (impact_bps / 10000)
  let side_sign : ℚ := if order.side = Side.BUY then 1 else -1
  { timestamp := market.timestamp, symbol := order.symbol, side := order.side,
    quantity := qty,
    fill_price := market.mid + side_sign * (half_spread + impact),
    commission := commission,
    slippage := market.mid + side_sign * (half_spread + impact) - market.mid }

/-- The FIFO loop of `SimulatedExecutionHandler.on_market`, fuelled by the
initial queue length (`for _ in range(len(q))`).  Returns the fills produced
(in order), the final queue, and the advanced RNG cursor.  Rotations model
`q.rotate(-1)`, drops model `q.popleft()`, and the two `break` sites return
the queue as currently arranged. -/
def processQueue (cpt : ℚ) (cfg : ExecutionConfig) (rng : ℕ → ℚ) (market : MarketEvent)
    (tick : ℕ) : ℕ → List PendingOrder → ℤ → ℕ → List TaggedFill × List PendingOrder × ℕ
  | 0, q, _, ri => ([], q, ri)
  | _ + 1, [], _, ri => ([], [], ri)
  | fuel + 1, p :: rest, remaining_capacity, ri =>
      if (tick : ℤ) - (p.submitted_tick : ℤ) < (cfg.micro.latency_events : ℤ) then
        processQueue cpt cfg rng market tick fuel (rest ++ [p]) remaining_capacity ri
      else if remaining_capacity ≤ 0 then ([], p :: rest, ri)
      else
        match p.order.order_type with
        | .LIMIT =>
            match p.order.limit_price with
            | none => processQueue cpt cfg rng market tick fuel rest remaining_capacity ri
            | some _ =>
                if ¬ limit_is_touching p.order market then
                  processQueue cpt cfg rng market tick fuel (rest ++ [p]) remaining_capacity ri
                else if cfg.micro.base_fill_probability * (1 - cfg.micro.queue_ahead_fraction)
                    < rng ri then
                  processQueue cpt cfg rng market tick fuel (rest ++ [p]) remaining_capacity (ri + 1)
                else
                  let fill_qty := min p.remaining remaining_capacity
                  if fill_qty ≤ 0 then ([], p :: rest, ri + 1)
                  else
                    let commission := if p.commission_charged then 0 else cpt
                    let p' : PendingOrder :=
                      { p with remaining := p.remaining - fill_qty, commission_charged := true }
                    let r := processQueue cpt cfg rng market tick fuel
                      (if p.remaining - fill_qty ≤ 0 then rest else rest ++ [p'])
                      (remaining_capacity - fill_qty) (ri + 1)
                    (⟨p.oid, execFill cfg p.order market fill_qty commission⟩ :: r.1, r.2.1, r.2.2)
        | .MARKET =>
            let fill_qty := min p.remaining remaining_capacity
            if fill_qty ≤ 0 then ([], p :: rest, ri)
            else
              let commission := if p.commission_charged then 0 else cpt
              let p' : PendingOrder :=
                { p with remaining := p.remaining - fill_qty, commission_charged := true }
              let r := processQueue cpt cfg rng market tick fuel
                (if p.remaining - fill_qty ≤ 0 then rest else rest ++ [p'])
                (remaining_capacity - fill_qty) ri
              (⟨p.oid, execFill cfg p.order market fill_qty commission⟩ :: r.1, r.2.1, r.2.2)

/-- `SimulatedExecutionHandler.on_market`. -/
def ExecState.on_market (ex : ExecState) (rng : ℕ → ℚ) (market : MarketEvent) :
    List TaggedFill × ExecState :=
  let sym := market.symbol
  let tick := ex.tick_index sym + 1
  let q := ex.pending sym
  if q = [] then
    ([], { ex with tick_index := Function.update ex.tick_index sym tick })
  else
    let tick_volume := match market.volume with
      | some v => v
      | none => ex.cfg.micro.default_tick_volume
    let max_fill_this_tick : ℤ := ⌊max 0 (tick_volume * ex.cfg.micro.max_participation_rate)⌋
    let r := processQueue ex.commission_per_trade ex.cfg rng market tick q.length q
      max_fill_this_tick ex.rng_index
    (r.1, { ex with
      tick_index := Function.update ex.tick_index sym tick
      pending := Function.update ex.pending sym r.2.1
      rng_index := r.2.2 })

/-- Events fed to the simulator over its lifetime. -/
inductive ExecEv
  | submitEv (order : OrderEvent)
  | marketEv (m : MarketEvent)

/-- One event step, accumulating the fill trace. -/
def execStep (rng : ℕ → ℚ) (st : ExecState × List TaggedFill) (ev : ExecEv) :
    ExecState × List TaggedFill :=
  match ev with
  | .submitEv o => (st.1.submit o, st.2)
  | .marketEv m =>
      let r := st.1.on_market rng m
      (r.2, st.2 ++ r.1)

/-- Run the simulator over an event sequence from a fresh handler. -/
def runExec (cpt : ℚ) (cfg : ExecutionConfig) (rng : ℕ → ℚ) (evs : List ExecEv) :
    ExecState × List TaggedFill :=
  evs.foldl (execStep rng) (mkExecState cpt cfg, [])

/-- The orders submitted, in submission order (their index is the ghost id). -/
def submittedOrders (evs : List ExecEv) : List OrderEvent :=
  evs.filterMap (fun ev => match ev with
    | .submitEv o => some o
    | .marketEv _ => none)

/-- Fills of the trace belonging to order id `o`. -/
def tfFor (tr : List TaggedFill) (o : ℕ) : List TaggedFill :=
  tr.filter (fun tf => tf.oid = o)

/-- Total filled quantity of a list of tagged fills. -/
def fillsQty (l : List TaggedFill) : ℤ :=
  (l.map (fun tf => tf.fill.quantity)).sum

theorem fillsQty_nil : fillsQty [] = 0 := rfl

theorem fillsQty_cons (a : TaggedFill) (l : List TaggedFill) :
    fillsQty (a :: l) = a.fill.quantity + fillsQty l := by
  simp [fillsQty]

theorem fillsQty_append (l₁ l₂ : List TaggedFill) :
    fillsQty (l₁ ++ l₂) = fillsQty l₁ + fillsQty l₂ := by
  simp [fillsQty]

theorem pq_fill_arith (fq cap X : ℤ) (hfq : 0 < fq) (hcap : 0 < cap) (hle : fq ≤ cap)
    (hX : X ≤ max (cap - fq) 0) : fq + X ≤ max cap 0 := by
  omega

theorem execFill_quantity (cfg : ExecutionConfig) (o : OrderEvent) (m : MarketEvent)
    (qty : ℤ) (c : ℚ) : (execFill cfg o m qty c).quantity = qty := rfl

/-- The loop never produces more volume than `remaining_capacity` allows. -/
theorem processQueue_qty_bound (cpt : ℚ) (cfg : ExecutionConfig) (rng : ℕ → ℚ)
    (market : MarketEvent) (tick : ℕ) :
    ∀ (fuel : ℕ) (q : List PendingOrder) (cap : ℤ) (ri : ℕ),
      fillsQty (processQueue cpt cfg rng market tick fuel q cap ri).1 ≤ max cap 0 := by
  intro fuel
  induction fuel with
  | zero =>
      intro q cap ri
      simp [processQueue, fillsQty]
  | succ fuel ih =>
      intro q cap ri
      cases q with
      | nil => simp [processQueue, fillsQty]
      | cons p rest =>
          simp only [processQueue]
          by_cases hlat : (tick : ℤ) - (p.submitted_tick : ℤ) < (cfg.micro.latency_events : ℤ)
          · rw [if_pos hlat]; exact ih _ _ _
          · rw [if_neg hlat]
            by_cases hcap : cap ≤ 0
            · rw [if_pos hcap]; simpa [fillsQty] using le_max_right cap 0
            · rw [if_neg hcap]
              have hcap' : 0 < cap := by omega
              cases hot : p.order.order_type with
              | MARKET =>
                  dsimp only
                  by_cases hfq : min p.remaining cap ≤ 0
                  · rw [if_pos hfq]; simpa [fillsQty] using le_max_right cap 0
                  · rw [if_neg hfq]
                    dsimp only
                    rw [fillsQty_cons, execFill_quantity]
                    exact pq_fill_arith _ _ _ (lt_of_not_le hfq) hcap' (min_le_right _ _)
                      (ih _ _ _)
              | LIMIT =>
                  dsimp only
                  cases hlp : p.order.limit_price with
                  | none => exact ih _ _ _
                  | some lp =>
                      dsimp only
                      by_cases htouch : ¬ limit_is_touching p.order market
                      · rw [if_pos htouch]; exact ih _ _ _
                      · rw [if_neg htouch]
                        by_cases hrng : cfg.micro.base_fill_probability
                            * (1 - cfg.micro.queue_ahead_fraction) < rng ri
                        · rw [if_pos hrng]; exact ih _ _ _
                        · rw [if_neg hrng]
                          by_cases hfq : min p.remaining cap ≤ 0
                          · rw [if_pos hfq]; simpa [fillsQty] using le_max_right cap 0
                          · rw [if_neg hfq]
                            dsimp only
                            rw [fillsQty_cons, execFill_quantity]
                            exact pq_fill_arith _ _ _ (lt_of_not_le hfq) hcap'
                              (min_le_right _ _) (ih _ _ _)

/-- Every fill the loop produces has positive quantity. -/
theorem processQueue_qty_pos (cpt : ℚ) (cfg : ExecutionConfig) (rng : ℕ → ℚ)
    (market : MarketEvent) (tick : ℕ) :
    ∀ (fuel : ℕ) (q : List PendingOrder) (cap : ℤ) (ri : ℕ),
      ∀ tf ∈ (processQueue cpt cfg rng market tick fuel q cap ri).1, 0 < tf.fill.quantity := by
  intro fuel
  induction fuel with
  | zero => intro q cap ri tf h; simp [processQueue] at h
  | succ fuel ih =>
      intro q cap ri
      cases q with
      | nil => intro tf h; simp [processQueue] at h
      | cons p rest =>
          simp only [processQueue]
          by_cases hlat : (tick : ℤ) - (p.submitted_tick : ℤ) < (cfg.micro.latency_events : ℤ)
          · rw [if_pos hlat]; exact ih _ _ _
          · rw [if_neg hlat]
            by_cases hcap : cap ≤ 0
            · rw [if_pos hcap]; intro tf h; simp at h
            · rw [if_neg hcap]
              cases hot : p.order.order_type with
              | MARKET =>
                  dsimp only
                  by_cases hfq : min p.remaining cap ≤ 0
                  · rw [if_pos hfq]; intro tf h; simp at h
                  · rw [if_neg hfq]
                    dsimp only
                    intro tf h
                    rcases List.mem_cons.1 h with hh | hh
                    · rw [hh]
                      show 0 < (execFill cfg p.order market (min p.remaining cap) _).quantity
                      rw [execFill_quantity]
                      exact lt_of_not_le hfq
                    · exact ih _ _ _ tf hh
              | LIMIT =>
                  dsimp only
                  cases hlp : p.order.limit_price with
                  | none => exact ih _ _ _
                  | some lp =>
                      dsimp only
                      by_cases htouch : ¬ limit_is_touching p.order market
                      · rw [if_pos htouch]; exact ih _ _ _
                      · rw [if_neg htouch]
                        by_cases hrng : cfg.micro.base_fill_probability
                            * (1 - cfg.micro.queue_ahead_fraction) < rng ri
                        · rw [if_pos hrng]; exact ih _ _ _
                        · rw [if_neg hrng]
                          by_cases hfq : min p.remaining cap ≤ 0
                          · rw [if_pos hfq]; intro tf h; simp at h
                          · rw [if_neg hfq]
                            dsimp only
                            intro tf h
                            rcases List.mem_cons.1 h with hh | hh
                            · rw [hh]
                              show 0 < (execFill cfg p.order market (min p.remaining cap) _).quantity
                              rw [execFill_quantity]
                              exact lt_of_not_le hfq
                            · exact ih _ _ _ tf hh

theorem fillsQty_nonneg (l : List TaggedFill) (hpos : ∀ tf ∈ l, 0 < tf.fill.quantity) :
    0 ≤ fillsQty l := by
  induction l with
  | nil => simp [fillsQty]
  | cons a t ih =>
      rw [fillsQty_cons]
      have ha := hpos a (List.mem_cons_self a t)
      have ht := ih (fun tf htf => hpos tf (List.mem_cons_of_mem a htf))
      omega

theorem eq_nil_of_fillsQty_nonpos (l : List TaggedFill)
    (hpos : ∀ tf ∈ l, 0 < tf.fill.quantity) (hle : fillsQty l ≤ 0) : l = [] := by
  cases l with
  | nil => rfl
  | cons a t =>
      exfalso
      have ha := hpos a (List.mem_cons_self a t)
      have ht := fillsQty_nonneg t (fun tf htf => hpos tf (List.mem_cons_of_mem a htf))
      rw [fillsQty_cons] at hle
      omega

theorem floor_max_zero (x : ℚ) : ⌊max 0 x⌋ = max 0 ⌊x⌋ := by
  rcases le_total 0 x with h | h
  · rw [max_eq_right h, max_eq_right (Int.floor_nonneg.2 h)]
  · rw [max_eq_left h, max_eq_left (by exact_mod_cast Int.floor_le_floor h)]
    exact Int.floor_intCast 0

/-- C9: on any single `on_market` call, the total quantity of the returned
fills is at most `max 0 ⌊tick_volume * max_participation_rate⌋` where
`tick_volume` is the tick's volume when present and `default_tick_volume`
otherwise; in particular a participation rate of 0 yields no fills. -/
theorem claim_C9_participation_cap (ex : ExecState) (rng : ℕ → ℚ) (market : MarketEvent) :
    fillsQty (ex.on_market rng market).1
      ≤ max 0 ⌊(match market.volume with
          | some v => v
          | none => ex.cfg.micro.default_tick_volume) * ex.cfg.micro.max_participation_rate⌋
    ∧ (ex.cfg.micro.max_participation_rate = 0 → (ex.on_market rng market).1 = []) := by
  simp only [ExecState.on_market]
  by_cases hq : ex.pending market.symbol = []
  · rw [if_pos hq]
    refine ⟨?_, fun _ => rfl⟩
    dsimp only
    rw [fillsQty_nil]
    exact le_max_left 0 _
  · rw [if_neg hq]
    set tv : ℚ := (match market.volume with
      | some v => v
      | none => ex.cfg.micro.default_tick_volume) with htv
    have hbound := processQueue_qty_bound ex.commission_per_trade ex.cfg rng market
      (ex.tick_index market.symbol + 1) (ex.pending market.symbol).length
      (ex.pending market.symbol) ⌊max 0 (tv * ex.cfg.micro.max_participation_rate)⌋
      ex.rng_index
    have hpos := processQueue_qty_pos ex.commission_per_trade ex.cfg rng market
      (ex.tick_index market.symbol + 1) (ex.pending market.symbol).length
      (ex.pending market.symbol) ⌊max 0 (tv * ex.cfg.micro.max_participation_rate)⌋
      ex.rng_index
    have hc0 : (0 : ℤ) ≤ ⌊max 0 (tv * ex.cfg.micro.max_participation_rate)⌋ :=
      Int.floor_nonneg.2 (le_max_left 0 _)
    constructor
    · calc fillsQty (processQueue ex.commission_per_trade ex.cfg rng market
            (ex.tick_index market.symbol + 1) (ex.pending market.symbol).length
            (ex.pending market.symbol) ⌊max 0 (tv * ex.cfg.micro.max_participation_rate)⌋
            ex.rng_index).1
          ≤ max ⌊max 0 (tv * ex.cfg.micro.max_participation_rate)⌋ 0 := hbound
        _ = ⌊max 0 (tv * ex.cfg.micro.max_participation_rate)⌋ := max_eq_left hc0
        _ = max 0 ⌊tv * ex.cfg.micro.max_participation_rate⌋ := floor_max_zero _
    · intro hrate
      refine eq_nil_of_fillsQty_nonpos _ hpos ?_
      have : (⌊max 0 (tv * ex.cfg.micro.max_participation_rate)⌋ : ℤ) = 0 := by
        rw [hrate]
        simp
      calc fillsQty _ ≤ max ⌊max 0 (tv * ex.cfg.micro.max_participation_rate)⌋ 0 := hbound
        _ = 0 := by rw [this]; exact max_self 0

/-- Witness for C9: a handler with participation rate 0 and a queued MARKET
order produces no fill on a tick. -/
theorem claim_C9_witness :
    (((mkExecState 1 { micro := { max_participation_rate := 0 } }).submit
        ⟨0, "A", Side.BUY, 10, OrderType.MARKET, none⟩).cfg.micro.max_participation_rate = 0)
    ∧ (((mkExecState 1 { micro := { max_participation_rate := 0 } }).submit
        ⟨0, "A", Side.BUY, 10, OrderType.MARKET, none⟩).on_market (fun _ => 0)
        ⟨0, "A", 100, none, none, none, none⟩).1 = [] := by
  refine ⟨rfl, ?_⟩
  exact (claim_C9_participation_cap _ (fun _ => 0) ⟨0, "A", 100, none, none, none, none⟩).2 rfl

/-- C8 counterexample: the Python `OrderEvent` dataclass has no
`__post_init__`, so construction never rejects: an order with quantity 0, a
LIMIT order without a limit price, and a MARKET order carrying a limit price
are all constructed successfully, contradicting the claim that these fail at
construction time. -/
theorem claim_C8_counterexample :
    mkOrderEvent 0 "A" Side.BUY 0 OrderType.MARKET none ≠ none
    ∧ mkOrderEvent 0 "A" Side.BUY 1 OrderType.LIMIT none ≠ none
    ∧ mkOrderEvent 0 "A" Side.SELL 1 OrderType.MARKET (some 5) ≠ none := by
  refine ⟨?_, ?_, ?_⟩ <;> simp [mkOrderEvent]

/-- C8 (amended): `OrderEvent` construction performs no validation and always
succeeds, whatever the quantity and order_type/limit_price combination; a
LIMIT order lacking a limit price is not an error but is silently dropped from
the execution queue when processed (eligible head, available capacity),
producing no fill. -/
theorem claim_C8_no_order_validation :
    (∀ (ts : ℤ) (sym : String) (side : Side) (qty : ℤ) (ot : OrderType) (lp : Option ℚ),
      mkOrderEvent ts sym side qty ot lp = some ⟨ts, sym, side, qty, ot, lp⟩)
    ∧ (∀ (cpt : ℚ) (cfg : ExecutionConfig) (rng : ℕ → ℚ) (market : MarketEvent)
        (tick fuel : ℕ) (p : PendingOrder) (rest : List PendingOrder) (cap : ℤ) (ri : ℕ),
        ¬ ((tick : ℤ) - (p.submitted_tick : ℤ) < (cfg.micro.latency_events : ℤ)) →
        ¬ cap ≤ 0 →
        p.order.order_type = OrderType.LIMIT →
        p.order.limit_price = none →
        processQueue cpt cfg rng market tick (fuel + 1) (p :: rest) cap ri
          = processQueue cpt cfg rng market tick fuel rest cap ri) := by
  constructor
  · intro ts sym side qty ot lp
    rfl
  · intro cpt cfg rng market tick fuel p rest cap ri hlat hcap hot hlp
    simp only [processQueue]
    rw [if_neg hlat, if_neg hcap, hot]
    dsimp only
    rw [hlp]

/-- Witness for C8 at a concrete dropped LIMIT order. -/
theorem claim_C8_witness :
    (¬ ((1 : ℤ) - ((0 : ℕ) : ℤ) < (((0 : ℕ) : ℤ))))
    ∧ ¬ ((5 : ℤ) ≤ 0)
    ∧ processQueue 1 { micro := { latency_events := 0 } } (fun _ => 0)
        ⟨0, "A", 100, none, none, none, none⟩ 1 1
        [⟨0, ⟨0, "A", Side.BUY, 3, OrderType.LIMIT, none⟩, 0, 3, false⟩] 5 0
      = processQueue 1 { micro := { latency_events := 0 } } (fun _ => 0)
        ⟨0, "A", 100, none, none, none, none⟩ 1 0 [] 5 0 := by
  refine ⟨by decide, by decide, ?_⟩
  exact claim_C8_no_order_validation.2 1 { micro := { latency_events := 0 } } (fun _ => 0)
    ⟨0, "A", 100, none, none, none, none⟩ 1 0
    ⟨0, ⟨0, "A", Side.BUY, 3, OrderType.LIMIT, none⟩, 0, 3, false⟩ [] 5 0
    (by decide) (by decide) rfl rfl

/-! ### RNG independence for MARKET-only flows (claim C10) -/

/-- Every queued order is a MARKET order. -/
def allMarketQ (q : List PendingOrder) : Prop :=
  ∀ p ∈ q, p.order.order_type = OrderType.MARKET

theorem allMarketQ_tail {p : PendingOrder} {rest : List PendingOrder}
    (h : allMarketQ (p :: rest)) : allMarketQ rest :=
  fun x hx => h x (List.mem_cons_of_mem p hx)

theorem allMarketQ_rotate {p : PendingOrder} {rest : List PendingOrder}
    (h : allMarketQ (p :: rest)) : allMarketQ (rest ++ [p]) := by
  intro x hx
  rcases List.mem_append.1 hx with hh | hh
  · exact h x (List.mem_cons_of_mem p hh)
  · rw [List.mem_singleton.1 hh]
    exact h p (List.mem_cons_self p rest)

theorem allMarketQ_rotate_mod {p p' : PendingOrder} {rest : List PendingOrder}
    (h : allMarketQ (p :: rest)) (horder : p'.order = p.order) :
    allMarketQ (rest ++ [p']) := by
  intro x hx
  rcases List.mem_append.1 hx with hh | hh
  · exact h x (List.mem_cons_of_mem p hh)
  · rw [List.mem_singleton.1 hh, horder]
    exact h p (List.mem_cons_self p rest)

/-- On an all-MARKET queue the loop never consults the RNG: its entire result
(fills, queue, cursor) is independent of the stream. -/
theorem processQueue_rng_irrelevant (cpt : ℚ) (cfg : ExecutionConfig)
    (market : MarketEvent) (tick : ℕ) (rng₁ rng₂ : ℕ → ℚ) :
    ∀ (fuel : ℕ) (q : List PendingOrder) (cap : ℤ) (ri : ℕ), allMarketQ q →
      processQueue cpt cfg rng₁ market tick fuel q cap ri
        = processQueue cpt cfg rng₂ market tick fuel q cap ri := by
  intro fuel
  induction fuel with
  | zero => intro q cap ri _; simp [processQueue]
  | succ fuel ih =>
      intro q cap ri hq
      cases q with
      | nil => simp [processQueue]
      | cons p rest =>
          simp only [processQueue]
          by_cases hlat : (tick : ℤ) - (p.submitted_tick : ℤ) < (cfg.micro.latency_events : ℤ)
          · rw [if_pos hlat, if_pos hlat]
            exact ih _ _ _ (allMarketQ_rotate hq)
          · rw [if_neg hlat, if_neg hlat]
            by_cases hcap : cap ≤ 0
            · rw [if_pos hcap, if_pos hcap]
            · rw [if_neg hcap, if_neg hcap]
              cases hot : p.order.order_type with
              | LIMIT =>
                  exact absurd (hq p (List.mem_cons_self p rest)) (by rw [hot]; simp)
              | MARKET =>
                  dsimp only
                  by_cases hfq : min p.remaining cap ≤ 0
                  · rw [if_pos hfq, if_pos hfq]
                  · rw [if_neg hfq, if_neg hfq]
                    rw [ih _ _ _ (by
                      by_cases hpop : p.remaining - min p.remaining cap ≤ 0
                      · rw [if_pos hpop]; exact allMarketQ_tail hq
                      · rw [if_neg hpop]; exact allMarketQ_rotate_mod hq rfl)]

/-- The loop preserves all-MARKET queues. -/
theorem processQueue_allMarket_out (cpt : ℚ) (cfg : ExecutionConfig) (rng : ℕ → ℚ)
    (market : MarketEvent) (tick : ℕ) :
    ∀ (fuel : ℕ) (q : List PendingOrder) (cap : ℤ) (ri : ℕ), allMarketQ q →
      allMarketQ ((processQueue cpt cfg rng market tick fuel q cap ri).2.1) := by
  intro fuel
  induction fuel with
  | zero => intro q cap ri hq; simpa [processQueue] using hq
  | succ fuel ih =>
      intro q cap ri hq
      cases q with
      | nil => intro x hx; simp [processQueue] at hx
      | cons p rest =>
          simp only [processQueue]
          by_cases hlat : (tick : ℤ) - (p.submitted_tick : ℤ) < (cfg.micro.latency_events : ℤ)
          · rw [if_pos hlat]
            exact ih _ _ _ (allMarketQ_rotate hq)
          · rw [if_neg hlat]
            by_cases hcap : cap ≤ 0
            · rw [if_pos hcap]; exact hq
            · rw [if_neg hcap]
              cases hot : p.order.order_type with
              | LIMIT =>
                  exact absurd (hq p (List.mem_cons_self p rest)) (by rw [hot]; simp)
              | MARKET =>
                  dsimp only
                  by_cases hfq : min p.remaining cap ≤ 0
                  · rw [if_pos hfq]; exact hq
                  · rw [if_neg hfq]
                    dsimp only
                    exact ih _ _ _ (by
                      by_cases hpop : p.remaining - min p.remaining cap ≤ 0
                      · rw [if_pos hpop]; exact allMarketQ_tail hq
                      · rw [if_neg hpop]; exact allMarketQ_rotate_mod hq rfl)

/-- Every queue of the handler is all-MARKET. -/
def allMarketState (ex : ExecState) : Prop :=
  ∀ sym, allMarketQ (ex.pending sym)

theorem submit_allMarket (ex : ExecState) (o : OrderEvent) (h : allMarketState ex)
    (ho : o.order_type = OrderType.MARKET) : allMarketState (ex.submit o) := by
  intro sym
  simp only [ExecState.submit]
  by_cases hs : sym = o.symbol
  · rw [hs, Function.update_same]
    intro p hp
    rcases List.mem_append.1 hp with hh | hh
    · exact h o.symbol p hh
    · rw [List.mem_singleton.1 hh]
      exact ho
  · rw [Function.update_noteq hs]
    exact h sym

theorem on_market_rng_eq (ex : ExecState) (market : MarketEvent)
    (rng₁ rng₂ : ℕ → ℚ) (h : allMarketState ex) :
    ex.on_market rng₁ market = ex.on_market rng₂ market := by
  simp only [ExecState.on_market]
  by_cases hq : ex.pending market.symbol = []
  · rw [if_pos hq, if_pos hq]
  · rw [if_neg hq, if_neg hq]
    have heq := processQueue_rng_irrelevant ex.commission_per_trade ex.cfg market
      (ex.tick_index market.symbol + 1) rng₁ rng₂ (ex.pending market.symbol).length
      (ex.pending market.symbol)
      ⌊max 0 ((match market.volume with
        | some v => v
        | none => ex.cfg.micro.default_tick_volume) * ex.cfg.micro.max_participation_rate)⌋
      ex.rng_index (h market.symbol)
    rw [heq]

theorem on_market_allMarket (ex : ExecState) (market : MarketEvent) (rng : ℕ → ℚ)
    (h : allMarketState ex) : allMarketState (ex.on_market rng market).2 := by
  intro sym
  simp only [ExecState.on_market]
  by_cases hq : ex.pending market.symbol = []
  · rw [if_pos hq]
    exact h sym
  · rw [if_neg hq]
    dsimp only
    by_cases hs : sym = market.symbol
    · rw [hs, Function.update_same]
      exact processQueue_allMarket_out _ _ _ _ _ _ _ _ _ (h market.symbol)
    · rw [Function.update_noteq hs]
      exact h sym

theorem submittedOrders_cons_submit (o : OrderEvent) (evs : List ExecEv) :
    submittedOrders (ExecEv.submitEv o :: evs) = o :: submittedOrders evs := rfl

theorem submittedOrders_cons_market (m : MarketEvent) (evs : List ExecEv) :
    submittedOrders (ExecEv.marketEv m :: evs) = submittedOrders evs := rfl

/-- C10: when every submitted order is a MARKET order, the fill sequence (and
indeed the whole run result) does not depend on the RNG stream: two seeded
RNGs differing only in seed produce identical fills. -/
theorem claim_C10_market_orders_seed_independent (cpt : ℚ) (cfg : ExecutionConfig)
    (rng₁ rng₂ : ℕ → ℚ) (evs : List ExecEv)
    (h : ∀ o ∈ submittedOrders evs, o.order_type = OrderType.MARKET) :
    (runExec cpt cfg rng₁ evs).2 = (runExec cpt cfg rng₂ evs).2 := by
  suffices hgen : ∀ (evs : List ExecEv) (st : ExecState × List TaggedFill),
      allMarketState st.1 → (∀ o ∈ submittedOrders evs, o.order_type = OrderType.MARKET) →
      evs.foldl (execStep rng₁) st = evs.foldl (execStep rng₂) st by
    exact congrArg Prod.snd
      (hgen evs (mkExecState cpt cfg, []) (fun sym p hp => by simp [mkExecState] at hp) h)
  intro evs'
  induction evs' with
  | nil => intro st _ _; rfl
  | cons ev rest ih =>
      intro st hst hmk
      cases ev with
      | submitEv o =>
          simp only [List.foldl_cons]
          refine ih (execStep rng₁ st (ExecEv.submitEv o)) ?_ ?_
          · exact submit_allMarket st.1 o hst
              (hmk o (by rw [submittedOrders_cons_submit]; exact List.mem_cons_self o _))
          · intro o' ho'
            exact hmk o' (by rw [submittedOrders_cons_submit]; exact List.mem_cons_of_mem o ho')
      | marketEv m =>
          simp only [List.foldl_cons]
          have hstep : execStep rng₁ st (ExecEv.marketEv m)
              = execStep rng₂ st (ExecEv.marketEv m) := by
            simp only [execStep]
            rw [on_market_rng_eq st.1 m rng₁ rng₂ hst]
          rw [← hstep]
          exact ih (execStep rng₁ st (ExecEv.marketEv m))
            (on_market_allMarket st.1 m rng₁ hst)
            (fun o' ho' => hmk o' ho')

/-- Witness for C10: one MARKET order over one tick, two different streams. -/
theorem claim_C10_witness :
    (∀ o ∈ submittedOrders [ExecEv.submitEv ⟨0, "A", Side.BUY, 5, OrderType.MARKET, none⟩,
        ExecEv.marketEv ⟨0, "A", 100, none, none, none, none⟩],
      o.order_type = OrderType.MARKET)
    ∧ (runExec 1 {} (fun _ => 0) [ExecEv.submitEv ⟨0, "A", Side.BUY, 5, OrderType.MARKET, none⟩,
        ExecEv.marketEv ⟨0, "A", 100, none, none, none, none⟩]).2
      = (runExec 1 {} (fun _ => 1 / 2)
          [ExecEv.submitEv ⟨0, "A", Side.BUY, 5, OrderType.MARKET, none⟩,
           ExecEv.marketEv ⟨0, "A", 100, none, none, none, none⟩]).2 := by
  constructor
  · intro o ho
    simp only [submittedOrders, List.filterMap] at ho
    simp at ho
    rw [ho]
  · exact claim_C10_market_orders_seed_independent 1 {} (fun _ => 0) (fun _ => 1 / 2) _
      (by intro o ho; simp only [submittedOrders, List.filterMap] at ho; simp at ho; rw [ho])

/-! ### Per-order fill accounting (claim C2) -/

/-- Commission is charged once: the first fill of the order carries
`commission_per_trade` and every later fill carries 0. -/
def commOnce (cpt : ℚ) (l : List TaggedFill) : Prop :=
  match l with
  | [] => True
  | f :: rest => f.fill.commission = cpt ∧ ∀ g ∈ rest, g.fill.commission = 0

theorem commOnce_append (cpt : ℚ) (l : List TaggedFill) (f : TaggedFill)
    (h : commOnce cpt l) (hf : f.fill.commission = (if l = [] then cpt else 0)) :
    commOnce cpt (l ++ [f]) := by
  cases l with
  | nil =>
      simp only [if_pos rfl] at hf
      exact ⟨hf, by intro g hg; simp at hg⟩
  | cons a rest =>
      simp only [List.cons_append, commOnce] at h ⊢
      refine ⟨h.1, ?_⟩
      intro g hg
      rcases List.mem_append.1 hg with hh | hh
      · exact h.2 g hh
      · rw [List.mem_singleton.1 hh]
        simpa using hf

theorem tfFor_append (tr l : List TaggedFill) (o : ℕ) :
    tfFor (tr ++ l) o = tfFor tr o ++ tfFor l o := by
  simp [tfFor, List.filter_append]

theorem tfFor_singleton_eq (f : TaggedFill) (o : ℕ) (h : f.oid = o) :
    tfFor [f] o = [f] := by
  simp [tfFor, h]

theorem tfFor_singleton_ne (f : TaggedFill) (o : ℕ) (h : ¬ f.oid = o) :
    tfFor [f] o = [] := by
  simp [tfFor, h]

/-- Relation between an order's live queue entry, the trace of its fills so
far, and its original quantity. -/
def PendInv (cpt : ℚ) (orders : List OrderEvent) (sym : String) (tr : List TaggedFill)
    (q : List PendingOrder) : Prop :=
  ∀ p ∈ q,
    orders.get? p.oid = some p.order
    ∧ p.order.symbol = sym
    ∧ fillsQty (tfFor tr p.oid) + p.remaining = p.order.quantity
    ∧ (p.commission_charged = true ↔ ¬ tfFor tr p.oid = [])
    ∧ (0 < p.remaining ∨ (p.remaining = p.order.quantity ∧ tfFor tr p.oid = []))

/-- Queue entries carry pairwise-distinct order ids. -/
def OidsDistinct (q : List PendingOrder) : Prop :=
  q.Pairwise (fun a b => a.oid ≠ b.oid)

theorem mem_rotate {p : PendingOrder} {rest : List PendingOrder} :
    ∀ x ∈ rest ++ [p], x ∈ p :: rest := by
  intro x hx
  rcases List.mem_append.1 hx with hh | hh
  · exact List.mem_cons_of_mem p hh
  · rw [List.mem_singleton.1 hh]
    exact List.mem_cons_self p rest

theorem pendInv_subset {cpt orders sym tr} {q q' : List PendingOrder}
    (h : PendInv cpt orders sym tr q) (hsub : ∀ p ∈ q', p ∈ q) :
    PendInv cpt orders sym tr q' :=
  fun p hp => h p (hsub p hp)

theorem pendInv_tail {cpt orders sym tr} {p : PendingOrder} {rest : List PendingOrder}
    (h : PendInv cpt orders sym tr (p :: rest)) : PendInv cpt orders sym tr rest :=
  pendInv_subset h (fun x hx => List.mem_cons_of_mem p hx)

theorem pendInv_append_ne {cpt orders sym tr} {q : List PendingOrder} (f : TaggedFill)
    (h : PendInv cpt orders sym tr q) (hf : ∀ p ∈ q, ¬ f.oid = p.oid) :
    PendInv cpt orders sym (tr ++ [f]) q := by
  intro p hp
  obtain ⟨h1, h2, h3, h4, h5⟩ := h p hp
  have hne : tfFor (tr ++ [f]) p.oid = tfFor tr p.oid := by
    rw [tfFor_append, tfFor_singleton_ne f p.oid (hf p hp), List.append_nil]
  rw [hne]
  exact ⟨h1, h2, h3, h4, h5⟩

theorem oidsDistinct_tail {p : PendingOrder} {rest : List PendingOrder}
    (h : OidsDistinct (p :: rest)) : OidsDistinct rest :=
  (List.pairwise_cons.1 h).2

theorem oidsDistinct_rotate_mod (p p' : PendingOrder) (rest : List PendingOrder)
    (hoid : p'.oid = p.oid) (h : OidsDistinct (p :: rest)) : OidsDistinct (rest ++ [p']) := by
  rw [OidsDistinct, List.pairwise_append]
  obtain ⟨hp, hrest⟩ := List.pairwise_cons.1 h
  refine ⟨hrest, List.pairwise_singleton _ _, ?_⟩
  intro a ha b hb
  rw [List.mem_singleton.1 hb, hoid]
  exact fun hh => hp a ha hh.symm

theorem oidsDistinct_rotate {p : PendingOrder} {rest : List PendingOrder}
    (h : OidsDistinct (p :: rest)) : OidsDistinct (rest ++ [p]) :=
  oidsDistinct_rotate_mod p p rest rfl h

theorem head_oid_not_in_rest {p : PendingOrder} {rest : List PendingOrder}
    (h : OidsDistinct (p :: rest)) : ∀ x ∈ rest, ¬ p.oid = x.oid :=
  (List.pairwise_cons.1 h).1

theorem mem_rotate' {p : PendingOrder} {rest : List PendingOrder} :
    ∀ x ∈ p :: rest, x ∈ rest ++ [p] := by
  intro x hx
  rcases List.mem_cons.1 hx with hh | hh
  · rw [hh]; exact List.mem_append.2 (Or.inr (List.mem_singleton.2 rfl))
  · exact List.mem_append.2 (Or.inl hh)

/-- Invariant preservation for one fill of the queue head, shared by the
MARKET path and the successful-LIMIT path of the loop. -/
theorem fill_step_inv (cpt : ℚ) (cfg : ExecutionConfig) (rng : ℕ → ℚ)
    (market : MarketEvent) (tick : ℕ) (orders : List OrderEvent) (sym : String)
    (fuel : ℕ)
    (ih : ∀ (q : List PendingOrder) (cap : ℤ) (ri : ℕ) (tr : List TaggedFill),
      PendInv cpt orders sym tr q →
      OidsDistinct q →
      (∀ o, commOnce cpt (tfFor tr o)) →
      (∀ o ord, orders.get? o = some ord → ord.symbol = sym →
        (∀ p ∈ q, ¬ p.oid = o) →
        fillsQty (tfFor tr o) ≤ ord.quantity ∨ tfFor tr o = []) →
      PendInv cpt orders sym (tr ++ (processQueue cpt cfg rng market tick fuel q cap ri).1)
          ((processQueue cpt cfg rng market tick fuel q cap ri).2.1)
      ∧ OidsDistinct ((processQueue cpt cfg rng market tick fuel q cap ri).2.1)
      ∧ (∀ o, commOnce cpt
          (tfFor (tr ++ (processQueue cpt cfg rng market tick fuel q cap ri).1) o))
      ∧ (∀ tf ∈ (processQueue cpt cfg rng market tick fuel q cap ri).1,
          ∃ p, p ∈ q ∧ tf.oid = p.oid)
      ∧ (∀ o ord, orders.get? o = some ord → ord.symbol = sym →
          (∀ p ∈ (processQueue cpt cfg rng market tick fuel q cap ri).2.1, ¬ p.oid = o) →
          fillsQty (tfFor (tr ++ (processQueue cpt cfg rng market tick fuel q cap ri).1) o)
              ≤ ord.quantity
          ∨ tfFor (tr ++ (processQueue cpt cfg rng market tick fuel q cap ri).1) o = []))
    (p : PendingOrder) (rest : List PendingOrder) (cap : ℤ) (ri' : ℕ)
    (tr : List TaggedFill)
    (hPend : PendInv cpt orders sym tr (p :: rest))
    (hDist : OidsDistinct (p :: rest))
    (hcomm : ∀ o, commOnce cpt (tfFor tr o))
    (hdone : ∀ o ord, orders.get? o = some ord → ord.symbol = sym →
      (∀ x ∈ p :: rest, ¬ x.oid = o) →
      fillsQty (tfFor tr o) ≤ ord.quantity ∨ tfFor tr o = [])
    (hfq : ¬ min p.remaining cap ≤ 0) :
    PendInv cpt orders sym
        (tr ++ ((⟨p.oid, execFill cfg p.order market (min p.remaining cap)
            (if p.commission_charged then 0 else cpt)⟩ : TaggedFill)
          :: (processQueue cpt cfg rng market tick fuel
              (if p.remaining - min p.remaining cap ≤ 0 then rest
                else rest ++ [{ p with remaining := p.remaining - min p.remaining cap, commission_charged := true }])
              (cap - min p.remaining cap) ri').1))
        ((processQueue cpt cfg rng market tick fuel
            (if p.remaining - min p.remaining cap ≤ 0 then rest
              else rest ++ [{ p with remaining := p.remaining - min p.remaining cap, commission_charged := true }])
            (cap - min p.remaining cap) ri').2.1)
    ∧ OidsDistinct ((processQueue cpt cfg rng market tick fuel
        (if p.remaining - min p.remaining cap ≤ 0 then rest
          else rest ++ [{ p with remaining := p.remaining - min p.remaining cap, commission_charged := true }])
        (cap - min p.remaining cap) ri').2.1)
    ∧ (∀ o, commOnce cpt (tfFor
        (tr ++ ((⟨p.oid, execFill cfg p.order market (min p.remaining cap)
            (if p.commission_charged then 0 else cpt)⟩ : TaggedFill)
          :: (processQueue cpt cfg rng market tick fuel
              (if p.remaining - min p.remaining cap ≤ 0 then rest
                else rest ++ [{ p with remaining := p.remaining - min p.remaining cap, commission_charged := true }])
              (cap - min p.remaining cap) ri').1)) o))
    ∧ (∀ tf ∈ ((⟨p.oid, execFill cfg p.order market (min p.remaining cap)
            (if p.commission_charged then 0 else cpt)⟩ : TaggedFill)
          :: (processQueue cpt cfg rng market tick fuel
              (if p.remaining - min p.remaining cap ≤ 0 then rest
                else rest ++ [{ p with remaining := p.remaining - min p.remaining cap, commission_charged := true }])
              (cap - min p.remaining cap) ri').1),
        ∃ x, x ∈ p :: rest ∧ tf.oid = x.oid)
    ∧ (∀ o ord, orders.get? o = some ord → ord.symbol = sym →
        (∀ x ∈ (processQueue cpt cfg rng market tick fuel
            (if p.remaining - min p.remaining cap ≤ 0 then rest
              else rest ++ [{ p with remaining := p.remaining - min p.remaining cap, commission_charged := true }])
            (cap - min p.remaining cap) ri').2.1, ¬ x.oid = o) →
        fillsQty (tfFor (tr ++ ((⟨p.oid, execFill cfg p.order market (min p.remaining cap)
            (if p.commission_charged then 0 else cpt)⟩ : TaggedFill)
          :: (processQueue cpt cfg rng market tick fuel
              (if p.remaining - min p.remaining cap ≤ 0 then rest
                else rest ++ [{ p with remaining := p.remaining - min p.remaining cap, commission_charged := true }])
              (cap - min p.remaining cap) ri').1)) o) ≤ ord.quantity
        ∨ tfFor (tr ++ ((⟨p.oid, execFill cfg p.order market (min p.remaining cap)
            (if p.commission_charged then 0 else cpt)⟩ : TaggedFill)
          :: (processQueue cpt cfg rng market tick fuel
              (if p.remaining - min p.remaining cap ≤ 0 then rest
                else rest ++ [{ p with remaining := p.remaining - min p.remaining cap, commission_charged := true }])
              (cap - min p.remaining cap) ri').1)) o = []) := by
  obtain ⟨hg, hsymm, hsum, hflag, hrem⟩ := hPend p (List.mem_cons_self p rest)
  set fq : ℤ := min p.remaining cap with hfqdef
  set f : TaggedFill := ⟨p.oid, execFill cfg p.order market fq
    (if p.commission_charged then 0 else cpt)⟩ with hfdef
  set p' : PendingOrder :=
    { p with remaining := p.remaining - fq, commission_charged := true } with hpdef
  set Q : List PendingOrder := if p.remaining - fq ≤ 0 then rest else rest ++ [p'] with hQdef
  have hfoid : f.oid = p.oid := rfl
  have hfqty : f.fill.quantity = fq := rfl
  have hfcomm : f.fill.commission = (if p.commission_charged then 0 else cpt) := rfl
  have htf_p : tfFor (tr ++ [f]) p.oid = tfFor tr p.oid ++ [f] := by
    rw [tfFor_append, tfFor_singleton_eq f p.oid hfoid]
  have htf_ne : ∀ o, ¬ o = p.oid → tfFor (tr ++ [f]) o = tfFor tr o := by
    intro o ho
    rw [tfFor_append, tfFor_singleton_ne f o (fun hh => ho (hh.symm.trans hfoid)),
      List.append_nil]
  have hqty_p : fillsQty (tfFor (tr ++ [f]) p.oid) = fillsQty (tfFor tr p.oid) + fq := by
    rw [htf_p, fillsQty_append, fillsQty_cons, fillsQty_nil, hfqty]
    ring
  -- hypotheses for the recursive call
  have hPend' : PendInv cpt orders sym (tr ++ [f]) Q := by
    have hrest : PendInv cpt orders sym (tr ++ [f]) rest :=
      pendInv_append_ne f (pendInv_tail hPend)
        (fun x hx hh => head_oid_not_in_rest hDist x hx (hfoid ▸ hh))
    rw [hQdef]
    by_cases hpop : p.remaining - fq ≤ 0
    · rw [if_pos hpop]; exact hrest
    · rw [if_neg hpop]
      intro x hx
      rcases List.mem_append.1 hx with hh | hh
      · exact hrest x hh
      · rw [List.mem_singleton.1 hh]
        refine ⟨hg, hsymm, ?_, ?_, ?_⟩
        · show fillsQty (tfFor (tr ++ [f]) p.oid) + (p.remaining - fq) = p.order.quantity
          rw [hqty_p]
          omega
        · show true = true ↔ ¬ tfFor (tr ++ [f]) p.oid = []
          rw [htf_p]
          simp
        · left
          show 0 < p.remaining - fq
          omega
  have hDist' : OidsDistinct Q := by
    rw [hQdef]
    by_cases hpop : p.remaining - fq ≤ 0
    · rw [if_pos hpop]; exact oidsDistinct_tail hDist
    · rw [if_neg hpop]; exact oidsDistinct_rotate_mod p p' rest rfl hDist
  have hcomm' : ∀ o, commOnce cpt (tfFor (tr ++ [f]) o) := by
    intro o
    by_cases ho : o = p.oid
    · rw [ho, htf_p]
      refine commOnce_append cpt _ f (hcomm p.oid) ?_
      rw [hfcomm]
      by_cases hold : tfFor tr p.oid = []
      · rw [if_pos hold]
        have : p.commission_charged = false := by
          cases hb : p.commission_charged
          · rfl
          · exact absurd hold (hflag.1 hb)
        rw [this]
        simp
      · rw [if_neg hold, if_pos (hflag.2 hold)]
    · rw [htf_ne o ho]
      exact hcomm o
  have hdone' : ∀ o ord, orders.get? o = some ord → ord.symbol = sym →
      (∀ x ∈ Q, ¬ x.oid = o) →
      fillsQty (tfFor (tr ++ [f]) o) ≤ ord.quantity ∨ tfFor (tr ++ [f]) o = [] := by
    intro o ord hg' hs' hno
    by_cases ho : o = p.oid
    · rw [hQdef] at hno
      by_cases hpop : p.remaining - fq ≤ 0
      · have hordp : ord = p.order := by
          rw [ho] at hg'
          rw [hg'] at hg
          exact Option.some.inj hg
        left
        rw [ho, hqty_p, hordp]
        have hle : fq ≤ p.remaining := min_le_left _ _
        omega
      · rw [if_neg hpop] at hno
        exact absurd (show p'.oid = o by rw [ho])
          (hno p' (List.mem_append.2 (Or.inr (List.mem_singleton.2 rfl))))
    · rw [htf_ne o ho]
      refine hdone o ord hg' hs' ?_
      intro x hx
      rcases List.mem_cons.1 hx with hh | hh
      · rw [hh]; exact fun hc => ho hc.symm
      · refine hno x ?_
        rw [hQdef]
        by_cases hpop : p.remaining - fq ≤ 0
        · rw [if_pos hpop]; exact hh
        · rw [if_neg hpop]; exact List.mem_append.2 (Or.inl hh)
  obtain ⟨r1, r2, r3, r4, r5⟩ := ih Q (cap - fq) ri' (tr ++ [f]) hPend' hDist' hcomm' hdone'
  have hassoc : tr ++ (f :: (processQueue cpt cfg rng market tick fuel Q (cap - fq) ri').1)
      = (tr ++ [f]) ++ (processQueue cpt cfg rng market tick fuel Q (cap - fq) ri').1 := by
    simp
  refine ⟨?_, r2, ?_, ?_, ?_⟩
  · rw [hassoc]; exact r1
  · intro o; rw [hassoc]; exact r3 o
  · intro tf htf
    rcases List.mem_cons.1 htf with hh | hh
    · exact ⟨p, List.mem_cons_self p rest, by rw [hh]⟩
    · obtain ⟨x, hxQ, hxoid⟩ := r4 tf hh
      rw [hQdef] at hxQ
      by_cases hpop : p.remaining - fq ≤ 0
      · rw [if_pos hpop] at hxQ
        exact ⟨x, List.mem_cons_of_mem p hxQ, hxoid⟩
      · rw [if_neg hpop] at hxQ
        rcases List.mem_append.1 hxQ with hy | hy
        · exact ⟨x, List.mem_cons_of_mem p hy, hxoid⟩
        · refine ⟨p, List.mem_cons_self p rest, ?_⟩
          rw [List.mem_singleton.1 hy] at hxoid
          exact hxoid
  · intro o ord hg' hs' hno
    rw [hassoc]
    exact r5 o ord hg' hs' hno

/-- The queue-processing loop preserves the per-order fill accounting
invariant of its symbol's queue, extends the trace only with fills attributed
to queued orders, and keeps completed orders within their quantity. -/
theorem processQueue_inv (cpt : ℚ) (cfg : ExecutionConfig) (rng : ℕ → ℚ)
    (market : MarketEvent) (tick : ℕ) (orders : List OrderEvent) (sym : String) :
    ∀ (fuel : ℕ) (q : List PendingOrder) (cap : ℤ) (ri : ℕ) (tr : List TaggedFill),
      PendInv cpt orders sym tr q →
      OidsDistinct q →
      (∀ o, commOnce cpt (tfFor tr o)) →
      (∀ o ord, orders.get? o = some ord → ord.symbol = sym →
        (∀ p ∈ q, ¬ p.oid = o) →
        fillsQty (tfFor tr o) ≤ ord.quantity ∨ tfFor tr o = []) →
      PendInv cpt orders sym (tr ++ (processQueue cpt cfg rng market tick fuel q cap ri).1)
          ((processQueue cpt cfg rng market tick fuel q cap ri).2.1)
      ∧ OidsDistinct ((processQueue cpt cfg rng market tick fuel q cap ri).2.1)
      ∧ (∀ o, commOnce cpt
          (tfFor (tr ++ (processQueue cpt cfg rng market tick fuel q cap ri).1) o))
      ∧ (∀ tf ∈ (processQueue cpt cfg rng market tick fuel q cap ri).1,
          ∃ p, p ∈ q ∧ tf.oid = p.oid)
      ∧ (∀ o ord, orders.get? o = some ord → ord.symbol = sym →
          (∀ p ∈ (processQueue cpt cfg rng market tick fuel q cap ri).2.1, ¬ p.oid = o) →
          fillsQty (tfFor (tr ++ (processQueue cpt cfg rng market tick fuel q cap ri).1) o)
              ≤ ord.quantity
          ∨ tfFor (tr ++ (processQueue cpt cfg rng market tick fuel q cap ri).1) o = []) := by
  intro fuel
  induction fuel with
  | zero =>
      intro q cap ri tr hPend hDist hcomm hdone
      simp only [processQueue, List.append_nil]
      exact ⟨hPend, hDist, hcomm, fun tf htf => absurd htf (List.not_mem_nil tf), hdone⟩
  | succ fuel ih =>
      intro q cap ri tr hPend hDist hcomm hdone
      cases q with
      | nil =>
          simp only [processQueue, List.append_nil]
          exact ⟨fun p hp => absurd hp (List.not_mem_nil p), List.Pairwise.nil, hcomm,
            fun tf htf => absurd htf (List.not_mem_nil tf), hdone⟩
      | cons p rest =>
          have hdoneDrop : ∀ o ord, orders.get? o = some ord → ord.symbol = sym →
              (∀ x ∈ rest, ¬ x.oid = o) →
              fillsQty (tfFor tr o) ≤ ord.quantity ∨ tfFor tr o = [] := by
            intro o ord hgo hs hno
            by_cases ho : o = p.oid
            · obtain ⟨hg', hsym', hsum, hflag, hrem⟩ := hPend p (List.mem_cons_self p rest)
              have hordp : ord = p.order := by
                rw [ho] at hgo
                exact Option.some.inj (hgo.symm.trans hg')
              rcases hrem with hpos | ⟨hre, htf⟩
              · left
                rw [ho, hordp]
                omega
              · right
                rw [ho]
                exact htf
            · refine hdone o ord hgo hs ?_
              intro x hx
              rcases List.mem_cons.1 hx with hh | hh
              · rw [hh]; exact fun hc => ho hc.symm
              · exact hno x hh
          simp only [processQueue]
          by_cases hlat : (tick : ℤ) - (p.submitted_tick : ℤ) < (cfg.micro.latency_events : ℤ)
          · rw [if_pos hlat]
            obtain ⟨r1, r2, r3, r4, r5⟩ := ih (rest ++ [p]) cap ri tr
              (pendInv_subset hPend mem_rotate)
              (oidsDistinct_rotate hDist)
              hcomm
              (fun o ord hgo hs hno => hdone o ord hgo hs
                (fun x hx => hno x (mem_rotate' x hx)))
            refine ⟨r1, r2, r3, ?_, r5⟩
            intro tf htf
            obtain ⟨x, hx1, hx2⟩ := r4 tf htf
            exact ⟨x, mem_rotate x hx1, hx2⟩
          · rw [if_neg hlat]
            by_cases hcap : cap ≤ 0
            · rw [if_pos hcap]
              simp only [List.append_nil]
              exact ⟨hPend, hDist, hcomm, fun tf htf => absurd htf (List.not_mem_nil tf),
                hdone⟩
            · rw [if_neg hcap]
              cases hot : p.order.order_type with
              | MARKET =>
                  dsimp only
                  by_cases hfq : min p.remaining cap ≤ 0
                  · rw [if_pos hfq]
                    simp only [List.append_nil]
                    exact ⟨hPend, hDist, hcomm,
                      fun tf htf => absurd htf (List.not_mem_nil tf), hdone⟩
                  · rw [if_neg hfq]
                    dsimp only
                    exact fill_step_inv cpt cfg rng market tick orders sym fuel ih
                      p rest cap ri tr hPend hDist hcomm
                      (fun o ord hgo hs hno => hdone o ord hgo hs hno) hfq
              | LIMIT =>
                  dsimp only
                  cases hlp : p.order.limit_price with
                  | none =>
                      obtain ⟨r1, r2, r3, r4, r5⟩ := ih rest cap ri tr
                        (pendInv_tail hPend) (oidsDistinct_tail hDist) hcomm hdoneDrop
                      refine ⟨r1, r2, r3, ?_, r5⟩
                      intro tf htf
                      obtain ⟨x, hx1, hx2⟩ := r4 tf htf
                      exact ⟨x, List.mem_cons_of_mem p hx1, hx2⟩
                  | some lp =>
                      dsimp only
                      by_cases htouch : ¬ limit_is_touching p.order market
                      · rw [if_pos htouch]
                        obtain ⟨r1, r2, r3, r4, r5⟩ := ih (rest ++ [p]) cap ri tr
                          (pendInv_subset hPend mem_rotate)
                          (oidsDistinct_rotate hDist)
                          hcomm
                          (fun o ord hgo hs hno => hdone o ord hgo hs
                            (fun x hx => hno x (mem_rotate' x hx)))
                        refine ⟨r1, r2, r3, ?_, r5⟩
                        intro tf htf
                        obtain ⟨x, hx1, hx2⟩ := r4 tf htf
                        exact ⟨x, mem_rotate x hx1, hx2⟩
                      · rw [if_neg htouch]
                        by_cases hrng : cfg.micro.base_fill_probability
                            * (1 - cfg.micro.queue_ahead_fraction) < rng ri
                        · rw [if_pos hrng]
                          obtain ⟨r1, r2, r3, r4, r5⟩ := ih (rest ++ [p]) cap (ri + 1) tr
                            (pendInv_subset hPend mem_rotate)
                            (oidsDistinct_rotate hDist)
                            hcomm
                            (fun o ord hgo hs hno => hdone o ord hgo hs
                              (fun x hx => hno x (mem_rotate' x hx)))
                          refine ⟨r1, r2, r3, ?_, r5⟩
                          intro tf htf
                          obtain ⟨x, hx1, hx2⟩ := r4 tf htf
                          exact ⟨x, mem_rotate x hx1, hx2⟩
                        · rw [if_neg hrng]
                          by_cases hfq : min p.remaining cap ≤ 0
                          · rw [if_pos hfq]
                            simp only [List.append_nil]
                            exact ⟨hPend, hDist, hcomm,
                              fun tf htf => absurd htf (List.not_mem_nil tf), hdone⟩
                          · rw [if_neg hfq]
                            dsimp only
                            exact fill_step_inv cpt cfg rng market tick orders sym fuel ih
                              p rest cap (ri + 1) tr hPend hDist hcomm
                              (fun o ord hgo hs hno => hdone o ord hgo hs hno) hfq

theorem tfFor_eq_nil (l : List TaggedFill) (o : ℕ) (h : ∀ tf ∈ l, ¬ tf.oid = o) :
    tfFor l o = [] := by
  rw [tfFor, List.filter_eq_nil]
  intro tf htf
  simpa using h tf htf

theorem pendInv_append_list {cpt orders sym tr} {q : List PendingOrder}
    (l : List TaggedFill) (h : PendInv cpt orders sym tr q)
    (hl : ∀ p ∈ q, tfFor l p.oid = []) :
    PendInv cpt orders sym (tr ++ l) q := by
  intro p hp
  obtain ⟨h1, h2, h3, h4, h5⟩ := h p hp
  have hne : tfFor (tr ++ l) p.oid = tfFor tr p.oid := by
    rw [tfFor_append, hl p hp, List.append_nil]
  rw [hne]
  exact ⟨h1, h2, h3, h4, h5⟩

theorem get?_lt_of_some {l : List OrderEvent} {i : ℕ} {a : OrderEvent}
    (h : l.get? i = some a) : i < l.length := by
  by_contra hc
  rw [List.get?_eq_none.2 (le_of_not_lt hc)] at h
  cases h

theorem get?_append_stable {l : List OrderEvent} (x : OrderEvent) {i : ℕ} {a : OrderEvent}
    (h : l.get? i = some a) : (l ++ [x]).get? i = some a := by
  rw [List.get?_append (get?_lt_of_some h)]
  exact h

theorem get?_concat_cases {l : List OrderEvent} {x : OrderEvent} {i : ℕ} {a : OrderEvent}
    (h : (l ++ [x]).get? i = some a) :
    l.get? i = some a ∨ (i = l.length ∧ a = x) := by
  by_cases hi : i < l.length
  · left
    rw [List.get?_append hi] at h
    exact h
  · right
    have hlen : i < l.length + 1 := by
      have := get?_lt_of_some h
      simpa using this
    have hieq : i = l.length := by omega
    subst hieq
    rw [List.get?_concat_length] at h
    exact ⟨rfl, (Option.some.inj h).symm⟩

/-- Whole-handler fill-accounting invariant tying the registry of submitted
orders, the live queues, and the trace of produced fills. -/
structure ExecsInv (cpt : ℚ) (orders : List OrderEvent) (ex : ExecState)
    (tr : List TaggedFill) : Prop where
  hnext : ex.next_oid = orders.length
  hq : ∀ sym, PendInv cpt orders sym tr (ex.pending sym)
  hpair : ∀ sym, OidsDistinct (ex.pending sym)
  hcomm : ∀ o, commOnce cpt (tfFor tr o)
  hoidlt : ∀ tf ∈ tr, tf.oid < orders.length
  hdone : ∀ o ord, orders.get? o = some ord →
    (∀ p ∈ ex.pending ord.symbol, ¬ p.oid = o) →
    fillsQty (tfFor tr o) ≤ ord.quantity ∨ tfFor tr o = []
  hcpt : ex.commission_per_trade = cpt

theorem execsInv_init (cpt : ℚ) (cfg : ExecutionConfig) :
    ExecsInv cpt [] (mkExecState cpt cfg) [] := by
  refine ⟨rfl, ?_, ?_, ?_, ?_, ?_, rfl⟩
  · intro sym p hp
    simp [mkExecState] at hp
  · intro sym
    exact List.Pairwise.nil
  · intro o
    exact trivial
  · intro tf htf
    simp at htf
  · intro o ord hg
    simp at hg

/-- The queue entry appended by `submit`. -/
def newPend (ex : ExecState) (o : OrderEvent) : PendingOrder :=
  { oid := ex.next_oid, order := o, submitted_tick := ex.tick_index o.symbol, remaining := o.quantity }

theorem execsInv_submit (cpt : ℚ) (orders : List OrderEvent) (ex : ExecState)
    (tr : List TaggedFill) (o : OrderEvent) (hinv : ExecsInv cpt orders ex tr) :
    ExecsInv cpt (orders ++ [o]) (ex.submit o) tr := by
  obtain ⟨hnext, hq, hpair, hcomm, hoidlt, hdone, hcpt⟩ := hinv
  have hfresh : tfFor tr orders.length = [] :=
    tfFor_eq_nil tr orders.length (fun tf htf hc => absurd hc (Nat.ne_of_lt (hoidlt tf htf)))
  have hold : ∀ sym', PendInv cpt (orders ++ [o]) sym' tr (ex.pending sym') := by
    intro sym' p hp
    obtain ⟨h1, h2, h3, h4, h5⟩ := hq sym' p hp
    exact ⟨get?_append_stable o h1, h2, h3, h4, h5⟩
  refine ⟨?_, ?_, ?_, hcomm, ?_, ?_, hcpt⟩
  · show ex.next_oid + 1 = (orders ++ [o]).length
    rw [hnext]
    simp
  · intro sym
    simp only [ExecState.submit]
    by_cases hs : sym = o.symbol
    · rw [hs, Function.update_same]
      intro p hp
      rcases List.mem_append.1 hp with hh | hh
      · exact hold o.symbol p hh
      · rw [List.mem_singleton.1 hh]
        refine ⟨?_, rfl, ?_, ?_, ?_⟩
        · show (orders ++ [o]).get? ex.next_oid = some o
          rw [hnext]
          exact List.get?_concat_length orders o
        · show fillsQty (tfFor tr ex.next_oid) + o.quantity = o.quantity
          rw [hnext, hfresh, fillsQty_nil]
          ring
        · show false = true ↔ ¬ tfFor tr ex.next_oid = []
          rw [hnext, hfresh]
          simp
        · right
          rw [hnext, hfresh]
          exact ⟨rfl, rfl⟩
    · rw [Function.update_noteq hs]
      exact hold sym
  · intro sym
    simp only [ExecState.submit]
    by_cases hs : sym = o.symbol
    · rw [hs, Function.update_same]
      rw [OidsDistinct, List.pairwise_append]
      refine ⟨hpair o.symbol, List.pairwise_singleton _ _, ?_⟩
      intro a ha b hb
      rw [List.mem_singleton.1 hb]
      show ¬ a.oid = ex.next_oid
      have := get?_lt_of_some (hq o.symbol a ha).1
      rw [hnext]
      omega
    · rw [Function.update_noteq hs]
      exact hpair sym
  · intro tf htf
    have := hoidlt tf htf
    simp only [List.length_append, List.length_singleton]
    omega
  · intro o' ord hg hno
    simp only [ExecState.submit] at hno
    rcases get?_concat_cases hg with hh | ⟨hh1, hh2⟩
    · refine hdone o' ord hh ?_
      intro p hp
      refine hno p ?_
      by_cases hs : ord.symbol = o.symbol
      · rw [hs, Function.update_same]
        exact List.mem_append.2 (Or.inl (by rw [← hs]; exact hp))
      · rw [Function.update_noteq hs]
        exact hp
    · exfalso
      have hords : ord = o := hh2
      have hmem : newPend ex o ∈ Function.update ex.pending o.symbol
          (ex.pending o.symbol ++ [newPend ex o]) ord.symbol := by
        rw [hords, Function.update_same]
        exact List.mem_append.2 (Or.inr (List.mem_singleton.2 rfl))
      have := hno (newPend ex o) hmem
      apply this
      show ex.next_oid = o'
      rw [hnext, hh1]

theorem execsInv_on_market (cpt : ℚ) (orders : List OrderEvent) (ex : ExecState)
    (tr : List TaggedFill) (rng : ℕ → ℚ) (market : MarketEvent)
    (hinv : ExecsInv cpt orders ex tr) :
    ExecsInv cpt orders ((ex.on_market rng market).2) (tr ++ (ex.on_market rng market).1) := by
  obtain ⟨hnext, hq, hpair, hcomm, hoidlt, hdone, hcpt⟩ := hinv
  subst hcpt
  simp only [ExecState.on_market]
  by_cases hqe : ex.pending market.symbol = []
  · rw [if_pos hqe]
    show ExecsInv ex.commission_per_trade orders
      { ex with tick_index := Function.update ex.tick_index market.symbol (ex.tick_index market.symbol + 1) }
      (tr ++ [])
    rw [List.append_nil]
    exact ⟨hnext, hq, hpair, hcomm, hoidlt, hdone, rfl⟩
  · rw [if_neg hqe]
    obtain ⟨r1, r2, r3, r4, r5⟩ := processQueue_inv ex.commission_per_trade ex.cfg rng market
      (ex.tick_index market.symbol + 1) orders market.symbol
      (ex.pending market.symbol).length (ex.pending market.symbol)
      ⌊max 0 ((match market.volume with
        | some v => v
        | none => ex.cfg.micro.default_tick_volume) * ex.cfg.micro.max_participation_rate)⌋
      ex.rng_index tr (hq market.symbol) (hpair market.symbol) hcomm
      (fun o ord hg hs hno => hdone o ord hg (by rw [hs]; exact hno))
    have hfills := r4
    have hA : ∀ (sym' : String), ¬ sym' = market.symbol → ∀ p' ∈ ex.pending sym',
        tfFor (processQueue ex.commission_per_trade ex.cfg rng market
          (ex.tick_index market.symbol + 1) (ex.pending market.symbol).length
          (ex.pending market.symbol)
          ⌊max 0 ((match market.volume with
            | some v => v
            | none => ex.cfg.micro.default_tick_volume) * ex.cfg.micro.max_participation_rate)⌋
          ex.rng_index).1 p'.oid = [] := by
      intro sym' hs p' hp'
      refine tfFor_eq_nil _ _ ?_
      intro tf htf hc
      obtain ⟨x, hx, hoid⟩ := hfills tf htf
      obtain ⟨hg1, hs1, _, _, _⟩ := hq market.symbol x hx
      obtain ⟨hg2, hs2, _, _, _⟩ := hq sym' p' hp'
      rw [hc] at hoid
      rw [hoid] at hg2
      rw [hg1] at hg2
      have : p'.order = x.order := Option.some.inj hg2.symm
      rw [this, hs1] at hs2
      exact hs (hs2.symm)
    have hB : ∀ (o : ℕ) (ord : OrderEvent), orders.get? o = some ord →
        ¬ ord.symbol = market.symbol →
        tfFor (processQueue ex.commission_per_trade ex.cfg rng market
          (ex.tick_index market.symbol + 1) (ex.pending market.symbol).length
          (ex.pending market.symbol)
          ⌊max 0 ((match market.volume with
            | some v => v
            | none => ex.cfg.micro.default_tick_volume) * ex.cfg.micro.max_participation_rate)⌋
          ex.rng_index).1 o = [] := by
      intro o ord hg hs
      refine tfFor_eq_nil _ _ ?_
      intro tf htf hc
      obtain ⟨x, hx, hoid⟩ := hfills tf htf
      obtain ⟨hg1, hs1, _, _, _⟩ := hq market.symbol x hx
      rw [hc] at hoid
      rw [hoid] at hg
      rw [hg1] at hg
      have : ord = x.order := Option.some.inj hg.symm
      rw [this, hs1] at hs
      exact hs rfl
    refine ⟨hnext, ?_, ?_, r3, ?_, ?_, rfl⟩
    · intro sym
      by_cases hs : sym = market.symbol
      · rw [hs]
        show PendInv ex.commission_per_trade orders market.symbol _
          (Function.update ex.pending market.symbol _ market.symbol)
        rw [Function.update_same]
        exact r1
      · show PendInv ex.commission_per_trade orders sym _
          (Function.update ex.pending market.symbol _ sym)
        rw [Function.update_noteq hs]
        refine pendInv_append_list _ (hq sym) ?_
        intro p' hp'
        exact hA sym hs p' hp'
    · intro sym
      by_cases hs : sym = market.symbol
      · rw [hs]
        show OidsDistinct (Function.update ex.pending market.symbol _ market.symbol)
        rw [Function.update_same]
        exact r2
      · show OidsDistinct (Function.update ex.pending market.symbol _ sym)
        rw [Function.update_noteq hs]
        exact hpair sym
    · intro tf htf
      rcases List.mem_append.1 htf with hh | hh
      · exact hoidlt tf hh
      · obtain ⟨x, hx, hoid⟩ := hfills tf hh
        rw [hoid]
        exact get?_lt_of_some (hq market.symbol x hx).1
    · intro o ord hg hno
      by_cases hs : ord.symbol = market.symbol
      · refine r5 o ord hg hs ?_
        intro p hp
        refine hno p ?_
        show p ∈ Function.update ex.pending market.symbol _ ord.symbol
        rw [hs, Function.update_same]
        exact hp
      · have htr : tfFor (tr ++ (processQueue ex.commission_per_trade ex.cfg rng market
            (ex.tick_index market.symbol + 1) (ex.pending market.symbol).length
            (ex.pending market.symbol)
            ⌊max 0 ((match market.volume with
              | some v => v
              | none => ex.cfg.micro.default_tick_volume)
                * ex.cfg.micro.max_participation_rate)⌋
            ex.rng_index).1) o = tfFor tr o := by
          rw [tfFor_append, hB o ord hg hs, List.append_nil]
        rw [htr]
        refine hdone o ord hg ?_
        intro p hp
        refine hno p ?_
        show p ∈ Function.update ex.pending market.symbol _ ord.symbol
        rw [Function.update_noteq hs]
        exact hp

theorem runExec_inv (cpt : ℚ) (cfg : ExecutionConfig) (rng : ℕ → ℚ) (evs : List ExecEv) :
    ExecsInv cpt (submittedOrders evs) (runExec cpt cfg rng evs).1
      (runExec cpt cfg rng evs).2 := by
  suffices hgen : ∀ (evs' : List ExecEv) (st : ExecState × List TaggedFill)
      (orders : List OrderEvent), ExecsInv cpt orders st.1 st.2 →
      ExecsInv cpt (orders ++ submittedOrders evs') (evs'.foldl (execStep rng) st).1
        (evs'.foldl (execStep rng) st).2 by
    have := hgen evs (mkExecState cpt cfg, []) [] (execsInv_init cpt cfg)
    simpa using this
  intro evs'
  induction evs' with
  | nil =>
      intro st orders h
      show ExecsInv cpt (orders ++ []) st.1 st.2
      rw [List.append_nil]
      exact h
  | cons ev rest ih =>
      intro st orders h
      cases ev with
      | submitEv o =>
          rw [List.foldl_cons]
          have hlist : orders ++ submittedOrders (ExecEv.submitEv o :: rest)
              = (orders ++ [o]) ++ submittedOrders rest := by
            rw [submittedOrders_cons_submit]
            simp
          rw [hlist]
          exact ih (execStep rng st (ExecEv.submitEv o)) (orders ++ [o])
            (execsInv_submit cpt orders st.1 st.2 o h)
      | marketEv m =>
          rw [List.foldl_cons, submittedOrders_cons_market]
          exact ih (execStep rng st (ExecEv.marketEv m)) orders
            (execsInv_on_market cpt orders st.1 st.2 rng m h)

/-- C2: for every order submitted to the simulator (with the positive quantity
the data model requires) and every sequence of market events, the fills
attributed to that order total at most its quantity, and commission is charged
exactly once: the order's first fill carries `commission_per_trade` and every
later fill carries 0. -/
theorem claim_C2_per_order_fills (cpt : ℚ) (cfg : ExecutionConfig) (rng : ℕ → ℚ)
    (evs : List ExecEv) (o : ℕ) (ord : OrderEvent)
    (hord : (submittedOrders evs).get? o = some ord) (hqty : 1 ≤ ord.quantity) :
    fillsQty (tfFor (runExec cpt cfg rng evs).2 o) ≤ ord.quantity
    ∧ commOnce cpt (tfFor (runExec cpt cfg rng evs).2 o) := by
  obtain ⟨hnext, hq, hpair, hcomm, hoidlt, hdone, hcpt⟩ := runExec_inv cpt cfg rng evs
  refine ⟨?_, hcomm o⟩
  by_cases hex : ∃ p ∈ (runExec cpt cfg rng evs).1.pending ord.symbol, p.oid = o
  · obtain ⟨p, hp, hpo⟩ := hex
    obtain ⟨hg1, hs1, hsum, hflag, hrem⟩ := hq ord.symbol p hp
    rw [hpo] at hg1 hsum
    rw [hord] at hg1
    have hpo' : p.order = ord := Option.some.inj hg1.symm
    rw [hpo'] at hsum
    rcases hrem with hpos | ⟨hre, htf⟩
    · omega
    · rw [hpo] at htf
      rw [htf, fillsQty_nil]
      omega
  · push_neg at hex
    rcases hdone o ord hord (fun p hp => hex p hp) with hh | hh
    · exact hh
    · rw [hh, fillsQty_nil]
      omega

/-- Witness for C2: one BUY-5 MARKET order over one tick. -/
theorem claim_C2_witness :
    (submittedOrders [ExecEv.submitEv ⟨0, "A", Side.BUY, 5, OrderType.MARKET, none⟩,
        ExecEv.marketEv ⟨0, "A", 100, none, none, none, none⟩]).get? 0
      = some ⟨0, "A", Side.BUY, 5, OrderType.MARKET, none⟩
    ∧ (1 : ℤ) ≤ (5 : ℤ)
    ∧ (fillsQty (tfFor (runExec 1 {} (fun _ => 0)
          [ExecEv.submitEv ⟨0, "A", Side.BUY, 5, OrderType.MARKET, none⟩,
           ExecEv.marketEv ⟨0, "A", 100, none, none, none, none⟩]).2 0) ≤ 5
        ∧ commOnce 1 (tfFor (runExec 1 {} (fun _ => 0)
            [ExecEv.submitEv ⟨0, "A", Side.BUY, 5, OrderType.MARKET, none⟩,
             ExecEv.marketEv ⟨0, "A", 100, none, none, none, none⟩]).2 0)) :=
  ⟨rfl, by decide,
    claim_C2_per_order_fills 1 {} (fun _ => 0)
      [ExecEv.submitEv ⟨0, "A", Side.BUY, 5, OrderType.MARKET, none⟩,
       ExecEv.marketEv ⟨0, "A", 100, none, none, none, none⟩] 0
      ⟨0, "A", Side.BUY, 5, OrderType.MARKET, none⟩ rfl (by decide)⟩

/-! ## Remaining metrics and the event loop (`backtest.py`)

`run_backtest`'s tick source, logging and persistence are external
collaborators; the loop over validated ticks, the strategy/execution/portfolio
composition and the result record are embedded.  The wall clock
(`datetime.now()` for the `created_at` field) is an explicit input `now`, and
the seeded RNG family is an explicit parameter `rngOf` mapping a seed to its
draw stream. -/

/-- `metrics.returns_from_equity`. -/
def returns_from_equity (equity : List ℚ) : List ℚ :=
  if equity.length < 2 then []
  else (equity.zip equity.tail).map (fun ab => (ab.2 - ab.1) / ab.1)

/-- `metrics.sharpe_ratio` (Bessel-corrected sample deviation); the square
root forces this single definition into `ℝ`. -/
noncomputable def sharpe_ratio (r : List ℚ) (trading_days : ℕ) : ℝ :=
  if r.length = 0 then 0
  else
    let mu : ℝ := ((r.sum : ℚ) : ℝ) / r.length
    let sigma : ℝ :=
      if 1 < r.length then
        Real.sqrt ((r.map (fun x => (((x : ℚ) : ℝ) - mu) ^ 2)).sum / (r.length - 1))
      else 0
    if sigma = 0 then 0 else mu / sigma * Real.sqrt trading_days

/-- `strategy.MovingAverageCrossStrategy`: per-symbol states keyed by the
configured symbols (`on_market` ignores unknown symbols). -/
structure MovingAverageCrossStrategy where
  symbols : List String
  short_window : ℕ
  long_window : ℕ
  states : String → SymbolState

/-- Constructor for a validated configuration (`BacktestConfig` guarantees
`0 < short_window < long_window`). -/
def mkStrategy (symbols : List String) (S L : ℕ) : MovingAverageCrossStrategy :=
  { symbols := symbols, short_window := S, long_window := L,
    states := fun _ => initSymbolState }

/-- `MovingAverageCrossStrategy.on_market`. -/
def MovingAverageCrossStrategy.on_market (st : MovingAverageCrossStrategy)
    (event : MarketEvent) : Option SignalEvent × MovingAverageCrossStrategy :=
  if event.symbol ∈ st.symbols then
    let r := stepSymbol st.short_window st.long_window (st.states event.symbol) event.mid
    (r.1.map (fun s => ⟨event.timestamp, event.symbol, s⟩),
      { st with states := Function.update st.states event.symbol r.2 })
  else (none, st)

/-- `config.BacktestConfig` (paths, persistence URL and output dir are
external collaborators and omitted). -/
structure BacktestConfig where
  symbols : List String
  initial_cash : ℚ := 100000
  trade_quantity : ℤ := 100
  commission_per_trade : ℚ := 1
  short_window : ℕ := 20
  long_window : ℕ := 50
  run_name : String := "default"
  execution : ExecutionConfig := {}
  risk : RiskConfig := {}

/-- Mutable state owned by the event loop. -/
structure LoopState where
  portfolio : MultiAssetPortfolio
  strat : MovingAverageCrossStrategy
  execution : ExecState

/-- State at run start (`run_backtest` construction section). -/
def initLoopState (cfg : BacktestConfig) : LoopState :=
  { portfolio := mkPortfolio cfg.initial_cash cfg.risk,
    strat := mkStrategy cfg.symbols cfg.short_window cfg.long_window,
    execution := mkExecState cfg.commission_per_trade cfg.execution }

/-- One iteration of the `for market in data.stream()` loop of
`run_backtest`: symbol filter, mark to market, fills applied, halt gate,
stop-loss liquidation, strategy signal.  Also returns the fills applied and
the orders submitted during the iteration. -/
def loopStep (cfg : BacktestConfig) (rng : ℕ → ℚ) (st : LoopState) (market : MarketEvent) :
    LoopState × List FillEvent × List OrderEvent :=
  if market.symbol ∈ cfg.symbols then
    let pf₁ := st.portfolio.mark_to_market market.symbol market.mid
    let r := st.execution.on_market rng market
    let fills := r.1.map (fun tf => tf.fill)
    let pf₂ := fills.foldl MultiAssetPortfolio.on_fill pf₁
    if pf₂.risk_state.trading_halted then
      ({ portfolio := pf₂, strat := st.strat, execution := r.2 }, fills, [])
    else
      match pf₂.check_stop_loss market.symbol with
      | some stop_side =>
          let g := pf₂.get_position market.symbol
          if 0 < |g.1.quantity| then
            ({ portfolio := g.2, strat := st.strat,
                execution := r.2.submit ⟨market.timestamp, market.symbol, stop_side,
                  |g.1.quantity|, .MARKET, none⟩ }, fills,
              [⟨market.timestamp, market.symbol, stop_side, |g.1.quantity|, .MARKET, none⟩])
          else ({ portfolio := g.2, strat := st.strat, execution := r.2 }, fills, [])
      | none =>
          let s := st.strat.on_market market
          match s.1 with
          | some sig =>
              let c := pf₂.can_place_order sig.symbol sig.side cfg.trade_quantity
              if c.1 then
                ({ portfolio := c.2, strat := s.2,
                    execution := r.2.submit ⟨sig.timestamp, sig.symbol, sig.side,
                      cfg.trade_quantity, .MARKET, none⟩ }, fills,
                  [⟨sig.timestamp, sig.symbol, sig.side, cfg.trade_quantity, .MARKET, none⟩])
              else ({ portfolio := c.2, strat := s.2, execution := r.2 }, fills, [])
          | none => ({ portfolio := pf₂, strat := s.2, execution := r.2 }, fills, [])
  else (st, [], [])

/-- The whole tick loop, collecting applied fills and submitted orders. -/
def runLoop (cfg : BacktestConfig) (rng : ℕ → ℚ) :
    LoopState → List MarketEvent → LoopState × List FillEvent × List OrderEvent
  | st, [] => (st, [], [])
  | st, m :: rest =>
      let r := loopStep cfg rng st m
      let rr := runLoop cfg rng r.1 rest
      (rr.1, r.2.1 ++ rr.2.1, r.2.2 ++ rr.2.2)

/-- The result record built at the end of `run_backtest` (the Python dict),
`halt_reason` carrying the drawdown value the code formats into the message
string, and `extra` carrying the two config records. -/
structure RunSummary where
  run_name : String
  symbols : List String
  short_window : ℕ
  long_window : ℕ
  initial_cash : ℚ
  final_equity : ℚ
  total_return : ℚ
  sharpe : ℝ
  max_drawdown : ℚ
  total_commission : ℚ
  total_slippage_cost : ℚ
  halted : Bool
  halt_reason : Option ℚ
  created_at : ℤ
  extra_execution : ExecutionConfig
  extra_risk : RiskConfig

/-- `run_backtest` over a validated tick list: returns the summary record and
the fill sequence applied during the run. -/
noncomputable def run_backtest (rngOf : ℤ → ℕ → ℚ) (cfg : BacktestConfig)
    (ticks : List MarketEvent) (now : ℤ) : RunSummary × List FillEvent :=
  let r := runLoop cfg (rngOf cfg.execution.rng_seed) (initLoopState cfg) ticks
  let eq := r.1.portfolio.equity_curve
  let final_equity : ℚ := match eq.getLast? with
    | some x => x
    | none => cfg.initial_cash
  ({ run_name := cfg.run_name
     symbols := cfg.symbols
     short_window := cfg.short_window
     long_window := cfg.long_window
     initial_cash := cfg.initial_cash
     final_equity := final_equity
     total_return := final_equity / cfg.initial_cash - 1
     sharpe := sharpe_ratio (returns_from_equity eq) 252
     max_drawdown := max_drawdown eq
     total_commission := r.1.portfolio.total_commission
     total_slippage_cost := r.1.portfolio.total_slippage_cost
     halted := r.1.portfolio.risk_state.trading_halted
     halt_reason := r.1.portfolio.risk_state.halt_reason
     created_at := now
     extra_execution := cfg.execution
     extra_risk := cfg.risk }, r.2.1)

/-- A summary with its wall-clock field cleared, for comparing runs modulo
`created_at`. -/
noncomputable def exCreated (s : RunSummary) : RunSummary :=
  { s with created_at := 0 }

/-- C3 counterexample: the result dict of `run_backtest` contains
`created_at = datetime.now()`, so two runs with identical config and tick
stream executed at different wall-clock instants produce results that are not
byte-identical (every other field, and the fill sequence, being equal). -/
theorem claim_C3_counterexample :
    run_backtest (fun _ _ => 0) { symbols := ["A"] } [] 0
      ≠ run_backtest (fun _ _ => 0) { symbols := ["A"] } [] 1 := by
  intro h
  have h2 : (run_backtest (fun _ _ => 0) { symbols := ["A"] } [] 0).1.created_at
      = (run_backtest (fun _ _ => 0) { symbols := ["A"] } [] 1).1.created_at :=
    congrArg (fun p => p.1.created_at) h
  have h3 : (0 : ℤ) = 1 := h2
  exact absurd h3 (by decide)

/-- C3 (amended): `run_backtest` consumes only the seeded RNG family, the
config, the tick stream and the wall clock; for a fixed PRNG family, two runs
with identical config and ticks produce identical fill sequences and result
records identical in every field except `created_at` (which copies the
clock). -/
theorem claim_C3_determinism (rngOf : ℤ → ℕ → ℚ) (cfg : BacktestConfig)
    (ticks : List MarketEvent) (now₁ now₂ : ℤ) :
    (run_backtest rngOf cfg ticks now₁).2 = (run_backtest rngOf cfg ticks now₂).2
    ∧ exCreated (run_backtest rngOf cfg ticks now₁).1
      = exCreated (run_backtest rngOf cfg ticks now₂).1 :=
  ⟨rfl, rfl⟩

/-! ### The drawdown halt is a latch (claim C7) -/

theorem mtm_risk_of_halted (pf : MultiAssetPortfolio) (s : String) (m : ℚ)
    (h : pf.risk_state.trading_halted = true) :
    (pf.mark_to_market s m).risk_state = pf.risk_state := by
  simp only [MultiAssetPortfolio.mark_to_market]
  split_ifs with h1 h2
  · rw [h] at h2
    exact absurd h2.2 (by decide)
  · rfl
  · rfl

theorem on_fill_risk (pf : MultiAssetPortfolio) (f : FillEvent) :
    (pf.on_fill f).risk_state = pf.risk_state := by
  simp only [MultiAssetPortfolio.on_fill, MultiAssetPortfolio.get_position]
  cases hpos : dictGet pf.positions f.symbol <;>
    cases hmid : dictGet pf.last_mid f.symbol <;>
    simp only [hpos, hmid]

theorem foldl_on_fill_risk (fills : List FillEvent) : ∀ pf : MultiAssetPortfolio,
    (fills.foldl MultiAssetPortfolio.on_fill pf).risk_state = pf.risk_state := by
  induction fills with
  | nil => intro pf; rfl
  | cons f rest ih =>
      intro pf
      rw [List.foldl_cons, ih, on_fill_risk]

theorem loopStep_halted (cfg : BacktestConfig) (rng : ℕ → ℚ) (st : LoopState)
    (market : MarketEvent) (h : st.portfolio.risk_state.trading_halted = true) :
    ((loopStep cfg rng st market).1).portfolio.risk_state.trading_halted = true
    ∧ (loopStep cfg rng st market).2.2 = []
    ∧ (market.symbol ∈ cfg.symbols →
        (loopStep cfg rng st market).1.portfolio
            = ((st.execution.on_market rng market).1.map (fun tf => tf.fill)).foldl
                MultiAssetPortfolio.on_fill
                (st.portfolio.mark_to_market market.symbol market.mid)
        ∧ (loopStep cfg rng st market).1.execution = (st.execution.on_market rng market).2
        ∧ (loopStep cfg rng st market).2.1
            = (st.execution.on_market rng market).1.map (fun tf => tf.fill)) := by
  simp only [loopStep]
  by_cases hmem : market.symbol ∈ cfg.symbols
  · rw [if_pos hmem]
    have hh : (((st.execution.on_market rng market).1.map (fun tf => tf.fill)).foldl
        MultiAssetPortfolio.on_fill
        (st.portfolio.mark_to_market market.symbol market.mid)).risk_state.trading_halted
        = true := by
      rw [foldl_on_fill_risk, mtm_risk_of_halted _ _ _ h]
      exact h
    rw [if_pos hh]
    exact ⟨hh, rfl, fun _ => ⟨rfl, rfl, rfl⟩⟩
  · rw [if_neg hmem]
    exact ⟨h, rfl, fun hc => absurd hc hmem⟩

theorem runLoop_halted (cfg : BacktestConfig) (rng : ℕ → ℚ) :
    ∀ (ticks : List MarketEvent) (st : LoopState),
      st.portfolio.risk_state.trading_halted = true →
      ((runLoop cfg rng st ticks).1).portfolio.risk_state.trading_halted = true
      ∧ (runLoop cfg rng st ticks).2.2 = [] := by
  intro ticks
  induction ticks with
  | nil => intro st h; exact ⟨h, rfl⟩
  | cons m rest ih =>
      intro st h
      obtain ⟨h1, h2, _⟩ := loopStep_halted cfg rng st m h
      obtain ⟨r1, r2⟩ := ih ((loopStep cfg rng st m).1) h1
      refine ⟨r1, ?_⟩
      show (loopStep cfg rng st m).2.2
        ++ (runLoop cfg rng (loopStep cfg rng st m).1 rest).2.2 = []
      rw [h2, r2]
      rfl

/-- C7: once `trading_halted` is true it stays true through every further
tick, and from a halted state the loop submits no order at all (neither
strategy-originated nor stop-loss liquidations) on any subsequent tick, while
it still runs `on_market` on the execution queue and applies every resulting
fill to the (marked-to-market) portfolio. -/
theorem claim_C7_halt_is_latched (cfg : BacktestConfig) (rng : ℕ → ℚ) :
    (∀ (st : LoopState) (market : MarketEvent),
      st.portfolio.risk_state.trading_halted = true →
      ((loopStep cfg rng st market).1).portfolio.risk_state.trading_halted = true
      ∧ (loopStep cfg rng st market).2.2 = []
      ∧ (market.symbol ∈ cfg.symbols →
          (loopStep cfg rng st market).1.portfolio
              = ((st.execution.on_market rng market).1.map (fun tf => tf.fill)).foldl
                  MultiAssetPortfolio.on_fill
                  (st.portfolio.mark_to_market market.symbol market.mid)
          ∧ (loopStep cfg rng st market).1.execution = (st.execution.on_market rng market).2
          ∧ (loopStep cfg rng st market).2.1
              = (st.execution.on_market rng market).1.map (fun tf => tf.fill)))
    ∧ (∀ (ticks : List MarketEvent) (st : LoopState),
        st.portfolio.risk_state.trading_halted = true →
        ((runLoop cfg rng st ticks).1).portfolio.risk_state.trading_halted = true
        ∧ (runLoop cfg rng st ticks).2.2 = []) :=
  ⟨fun st market h => loopStep_halted cfg rng st market h,
   fun ticks st h => runLoop_halted cfg rng ticks st h⟩

/-- A concrete halted portfolio for the C7 witness. -/
def haltedPF : MultiAssetPortfolio :=
  { initial_cash := 1000, risk_cfg := {}, cash := 1000, peak_equity := 1000,
    equity_acc := 1000, risk_state := { trading_halted := true, halt_reason := some (3 / 10) } }

/-- Witness for C7: from a halted state, a tick on a configured symbol yields
no submitted orders and the halt persists. -/
theorem claim_C7_witness :
    haltedPF.risk_state.trading_halted = true
    ∧ ((runLoop { symbols := ["A"] } (fun _ => 0)
          ⟨haltedPF, mkStrategy ["A"] 1 2, mkExecState 1 {}⟩
          [⟨0, "A", 100, none, none, none, none⟩]).1).portfolio.risk_state.trading_halted = true
    ∧ (runLoop { symbols := ["A"] } (fun _ => 0)
          ⟨haltedPF, mkStrategy ["A"] 1 2, mkExecState 1 {}⟩
          [⟨0, "A", 100, none, none, none, none⟩]).2.2 = [] := by
  refine ⟨rfl, ?_, ?_⟩
  · exact ((claim_C7_halt_is_latched { symbols := ["A"] } (fun _ => 0)).2
      [⟨0, "A", 100, none, none, none, none⟩]
      ⟨haltedPF, mkStrategy ["A"] 1 2, mkExecState 1 {}⟩ rfl).1
  · exact ((claim_C7_halt_is_latched { symbols := ["A"] } (fun _ => 0)).2
      [⟨0, "A", 100, none, none, none, none⟩]
      ⟨haltedPF, mkStrategy ["A"] 1 2, mkExecState 1 {}⟩ rfl).2

end Backtest
